import Mathlib

/- A verification development for a Rust procedural attribute that rewrites a
data-type declaration, hoisting every macro invocation found in type position
into a hidden type alias and re-emitting the declaration with a derive list.

The embedding follows `src/lib.rs` of the repository:

* `Tok` models `proc_macro2::TokenTree` (identifier, punctuation character,
  delimited group, literal).  Spacing and span data carry no behaviour in the
  source and are omitted.
* `is_generic_param_used_in_token_stream` is the parameter-usage analyzer,
  translated from the indexed loop of the source into an equivalent structural
  recursion (the source peeks at index `i + 1`; here that is the head of the
  tail list).
* All maps, folds and filters are translations of the source's `for` loops. -/

inductive Delim where
  | paren
  | bracket
  | brace
deriving DecidableEq

inductive Tok where
  | ident (s : String)
  | punct (c : Char)
  | group (d : Delim) (ts : List Tok)
  | lit (s : String)

mutual

def Tok.beq : Tok → Tok → Bool
  | .ident a, .ident b => a == b
  | .punct a, .punct b => a == b
  | .group da a, .group db b => da == db && Tok.beqs a b
  | .lit a, .lit b => a == b
  | _, _ => false

def Tok.beqs : List Tok → List Tok → Bool
  | [], [] => true
  | a :: as, b :: bs => Tok.beq a b && Tok.beqs as bs
  | _, _ => false

end

mutual

theorem Tok.beq_iff : ∀ a b : Tok, Tok.beq a b = true ↔ a = b
  | .ident _, .ident _ => by simp [Tok.beq]
  | .ident _, .punct _ => by simp [Tok.beq]
  | .ident _, .group _ _ => by simp [Tok.beq]
  | .ident _, .lit _ => by simp [Tok.beq]
  | .punct _, .ident _ => by simp [Tok.beq]
  | .punct _, .punct _ => by simp [Tok.beq]
  | .punct _, .group _ _ => by simp [Tok.beq]
  | .punct _, .lit _ => by simp [Tok.beq]
  | .group _ _, .ident _ => by simp [Tok.beq]
  | .group _ _, .punct _ => by simp [Tok.beq]
  | .group da a, .group db b => by simp [Tok.beq, Tok.beqs_iff a b]
  | .group _ _, .lit _ => by simp [Tok.beq]
  | .lit _, .ident _ => by simp [Tok.beq]
  | .lit _, .punct _ => by simp [Tok.beq]
  | .lit _, .group _ _ => by simp [Tok.beq]
  | .lit _, .lit _ => by simp [Tok.beq]

theorem Tok.beqs_iff : ∀ as bs : List Tok, Tok.beqs as bs = true ↔ as = bs
  | [], [] => by simp [Tok.beqs]
  | [], _ :: _ => by simp [Tok.beqs]
  | _ :: _, [] => by simp [Tok.beqs]
  | a :: as, b :: bs => by
      simp [Tok.beqs, Tok.beq_iff a b, Tok.beqs_iff as bs]

end

instance : DecidableEq Tok := fun a b => decidable_of_iff _ (Tok.beq_iff a b)

/-- The lifetime peek of the source's punctuation branch: the token after the
`'` punctuation, at the same group level, is an identifier `s` with
`"'" ++ s` equal to `identifier`. -/
def lifetimePeek (rest : List Tok) (identifier : String) : Bool :=
  match rest with
  | .ident s :: _ => ("'" ++ s) == identifier
  | _ => false

theorem lifetimePeek_eq_true_iff (rest : List Tok) (n : String) :
    lifetimePeek rest n = true ↔
      ∃ s tail, rest = Tok.ident s :: tail ∧ "'" ++ s = n := by
  cases rest with
  | nil => simp [lifetimePeek]
  | cons t tail => cases t <;> simp [lifetimePeek]

/- `is_generic_param_used_in_token_stream` from the source: scan a token
list for an identifier equal to `identifier`; recurse into groups; at a `'`
punctuation, peek at the next token of the same list and compare
`"'" ++ ident` with `identifier`; literals never match. -/
def is_generic_param_used_in_token_stream : List Tok → String → Bool
  | [], _ => false
  | .ident s :: rest, identifier =>
      s == identifier || is_generic_param_used_in_token_stream rest identifier
  | .group _ ts :: rest, identifier =>
      is_generic_param_used_in_token_stream ts identifier
        || is_generic_param_used_in_token_stream rest identifier
  | .punct c :: rest, identifier =>
      (c == '\'' && lifetimePeek rest identifier)
        || is_generic_param_used_in_token_stream rest identifier
  | .lit _ :: rest, identifier =>
      is_generic_param_used_in_token_stream rest identifier

/-- Specification-side predicate: some identifier token equal to `n` occurs in
the token forest, found by exhaustive recursion into groups. -/
inductive IdentOccurs (n : String) : List Tok → Prop
  | here (rest : List Tok) : IdentOccurs n (.ident n :: rest)
  | inGroup (d : Delim) (ts rest : List Tok) :
      IdentOccurs n ts → IdentOccurs n (.group d ts :: rest)
  | later (t : Tok) (rest : List Tok) :
      IdentOccurs n rest → IdentOccurs n (t :: rest)

/-- Specification-side predicate: a `'` punctuation token immediately followed,
in the same group level, by an identifier token `m`, with `"'" ++ m = n`. -/
inductive LifetimeOccurs (n : String) : List Tok → Prop
  | here (m : String) (rest : List Tok) :
      "'" ++ m = n → LifetimeOccurs n (.punct '\'' :: .ident m :: rest)
  | inGroup (d : Delim) (ts rest : List Tok) :
      LifetimeOccurs n ts → LifetimeOccurs n (.group d ts :: rest)
  | later (t : Tok) (rest : List Tok) :
      LifetimeOccurs n rest → LifetimeOccurs n (t :: rest)

theorem is_used_iff_occurs :
    ∀ (toks : List Tok) (n : String),
      is_generic_param_used_in_token_stream toks n = true ↔
        IdentOccurs n toks ∨ LifetimeOccurs n toks
  | [], n => by
      constructor
      · intro h; simp [is_generic_param_used_in_token_stream] at h
      · rintro (h | h) <;> cases h
  | .ident s :: rest, n => by
      rw [is_generic_param_used_in_token_stream]
      rw [Bool.or_eq_true, beq_iff_eq, is_used_iff_occurs rest n]
      constructor
      · rintro (rfl | h | h)
        · exact Or.inl (IdentOccurs.here rest)
        · exact Or.inl (IdentOccurs.later _ _ h)
        · exact Or.inr (LifetimeOccurs.later _ _ h)
      · rintro (h | h)
        · cases h with
          | here => exact Or.inl rfl
          | later _ _ h => exact Or.inr (Or.inl h)
        · cases h with
          | later _ _ h => exact Or.inr (Or.inr h)
  | .group d ts :: rest, n => by
      rw [is_generic_param_used_in_token_stream]
      rw [Bool.or_eq_true, is_used_iff_occurs ts n, is_used_iff_occurs rest n]
      constructor
      · rintro ((h | h) | (h | h))
        · exact Or.inl (IdentOccurs.inGroup _ _ _ h)
        · exact Or.inr (LifetimeOccurs.inGroup _ _ _ h)
        · exact Or.inl (IdentOccurs.later _ _ h)
        · exact Or.inr (LifetimeOccurs.later _ _ h)
      · rintro (h | h)
        · cases h with
          | inGroup _ _ _ h => exact Or.inl (Or.inl h)
          | later _ _ h => exact Or.inr (Or.inl h)
        · cases h with
          | inGroup _ _ _ h => exact Or.inl (Or.inr h)
          | later _ _ h => exact Or.inr (Or.inr h)
  | .punct c :: rest, n => by
      rw [is_generic_param_used_in_token_stream]
      rw [Bool.or_eq_true, Bool.and_eq_true, beq_iff_eq,
        is_used_iff_occurs rest n]
      constructor
      · rintro (⟨rfl, h⟩ | h | h)
        · rw [lifetimePeek_eq_true_iff] at h
          obtain ⟨s, tail, rfl, hs⟩ := h
          exact Or.inr (LifetimeOccurs.here s tail hs)
        · exact Or.inl (IdentOccurs.later _ _ h)
        · exact Or.inr (LifetimeOccurs.later _ _ h)
      · rintro (h | h)
        · cases h with
          | later _ _ h => exact Or.inr (Or.inl h)
        · cases h with
          | here m rest2 hm =>
              refine Or.inl ⟨rfl, ?_⟩
              rw [lifetimePeek_eq_true_iff]
              exact ⟨m, rest2, rfl, hm⟩
          | later _ _ h => exact Or.inr (Or.inr h)
  | .lit s :: rest, n => by
      rw [is_generic_param_used_in_token_stream]
      rw [is_used_iff_occurs rest n]
      constructor
      · rintro (h | h)
        · exact Or.inl (IdentOccurs.later _ _ h)
        · exact Or.inr (LifetimeOccurs.later _ _ h)
      · rintro (h | h)
        · cases h with
          | later _ _ h => exact Or.inl h
        · cases h with
          | later _ _ h => exact Or.inr h

/-- Whether a string begins with an apostrophe, as a lifetime such as `'a`
spells. -/
def strHeadIsQuote (s : String) : Bool := s.data.head? == some '\''

/-- Tokens are well formed in the sense of `proc_macro2`: the string carried by
an identifier token never starts with an apostrophe (a lifetime is lexed as a
`'` punctuation followed by an identifier, never as one identifier token). -/
def WFToks : List Tok → Bool
  | [] => true
  | .ident s :: rest => (!strHeadIsQuote s) && WFToks rest
  | .group _ ts :: rest => WFToks ts && WFToks rest
  | .punct _ :: rest => WFToks rest
  | .lit _ :: rest => WFToks rest

theorem identOccurs_not_lifetime_shaped :
    ∀ (toks : List Tok) (n : String), WFToks toks = true →
      strHeadIsQuote n = true → ¬ IdentOccurs n toks := by
  intro toks n hwf hn h
  induction h with
  | here rest =>
      rw [WFToks, Bool.and_eq_true, Bool.not_eq_true'] at hwf
      rw [hn] at hwf
      exact absurd hwf.1 (by simp)
  | inGroup d ts rest _ ih =>
      rw [WFToks, Bool.and_eq_true] at hwf
      exact ih hwf.1
  | later t rest _ ih =>
      cases t <;> (
        first
          | (rw [WFToks, Bool.and_eq_true] at hwf; exact ih hwf.2)
          | (rw [WFToks] at hwf; exact ih hwf))

theorem lifetimeOccurs_head_quote :
    ∀ (toks : List Tok) (n : String), LifetimeOccurs n toks →
      strHeadIsQuote n = true := by
  intro toks n h
  induction h with
  | here m rest hm => rw [← hm]; simp [strHeadIsQuote, String.data_append]
  | inGroup _ _ _ _ ih => exact ih
  | later _ _ _ ih => exact ih

/- Generic parameters of the declaration, `syn::GenericParam`.  Bounds and
const types are carried opaquely (the source never inspects them); a lifetime
parameter's `name` includes the leading apostrophe, as
`syn::Lifetime::to_string` renders it.  `default` models the parameter's
`eq_token` together with its default value: the source always clears both at
once. -/
inductive GenericParam where
  | typeP (name : String) (bounds : String) (default : Option String)
  | lifetimeP (name : String) (bounds : String)
  | constP (name : String) (ty : String) (default : Option String)
deriving DecidableEq

/-- The source's `param_name` match inside `get_used_generic_params`:
`ident.to_string()` for type and const parameters, `lifetime.to_string()`
(with the apostrophe) for lifetime parameters. -/
def paramName : GenericParam → String
  | .typeP n _ _ => n
  | .lifetimeP n _ => n
  | .constP n _ _ => n

/-- The per-parameter rewrite applied by `impl_type_macro_derive_tricks` when
it emits an alias: clear `eq_token` and `default` on type and const
parameters, leave lifetime parameters untouched. -/
def stripDefault : GenericParam → GenericParam
  | .typeP n b _ => .typeP n b none
  | .lifetimeP n b => .lifetimeP n b
  | .constP n t _ => .constP n t none

/- The type-expression tree, `syn::Type` restricted to the shapes the source
traverses.  `Segs` models the segment list of a `Type::Path` (segment name
plus its `PathArguments`); `OptArgs.noArgs` is `PathArguments::None` or any
argument form the source does not walk into, `OptArgs.withArgs` is
`PathArguments::AngleBracketed`.  A `TList` inside `withArgs` holds the
bracketed arguments in order: `lifetimeArg` and `nonTypeArg` stand for
generic arguments other than `GenericArgument::Type`, which the source's
loops skip.  `other` is the catch-all `_` arm of the source's matches
(function pointers, trait objects, ...); its payload records the nested type
expressions such a shape may syntactically hold, which the source never
visits.  `macroInv` carries the macro path and the raw argument tokens. -/
mutual

inductive TExpr where
  | path (segs : Segs)
  | array (elem : TExpr) (len : String)
  | slice (elem : TExpr)
  | ptr (mutbl : Bool) (elem : TExpr)
  | ref (lt : Option String) (mutbl : Bool) (elem : TExpr)
  | tuple (elems : TList)
  | macroInv (mpath : List String) (toks : List Tok)
  | other (inner : TList)
  | lifetimeArg (s : String)
  | nonTypeArg (toks : List Tok)
deriving DecidableEq

inductive Segs where
  | nil
  | cons (name : String) (args : OptArgs) (rest : Segs)
deriving DecidableEq

inductive OptArgs where
  | noArgs
  | withArgs (args : TList)
deriving DecidableEq

inductive TList where
  | nil
  | cons (t : TExpr) (ts : TList)
deriving DecidableEq

end

def TList.toList : TList → List TExpr
  | .nil => []
  | .cons t ts => t :: TList.toList ts

def TList.ofList : List TExpr → TList
  | [] => .nil
  | t :: ts => .cons t (TList.ofList ts)

def TList.get? : TList → Nat → Option TExpr
  | .nil, _ => none
  | .cons t _, 0 => some t
  | .cons _ ts, n + 1 => TList.get? ts n

def Segs.get? : Segs → Nat → Option (String × OptArgs)
  | .nil, _ => none
  | .cons n a _, 0 => some (n, a)
  | .cons _ _ rest, k + 1 => Segs.get? rest k

/-- `get_used_generic_params` from the source: on a `Type::Macro`, walk the
declaration's parameter list in order and push every parameter whose name the
token analyzer finds in the macro's argument tokens; on every other type,
return the empty list. -/
def get_used_generic_params (macro_type : TExpr) (generics : List GenericParam) :
    List GenericParam :=
  match macro_type with
  | .macroInv _ toks =>
      generics.foldl
        (fun used_params param =>
          if is_generic_param_used_in_token_stream toks (paramName param)
          then used_params ++ [param]
          else used_params)
        []
  | _ => []

/-- `create_filtered_generics` from the source: push each used parameter into
a fresh `Generics` value. -/
def create_filtered_generics (used_params : List GenericParam) :
    List GenericParam :=
  used_params.foldl (fun generics param => generics ++ [param]) []

/-- `generate_random_type_name` from the source: the fixed prefix followed by
the suffix drawn from the process-wide random source (the suffix is a
parameter of the embedding). -/
def generate_random_type_name (suffix : String) : String :=
  "__TypeMacroAlias" ++ suffix

/-- Association-list view of the source's `HashMap<Type, Ident>` in insertion
order: lookup by structural equality, first binding wins. -/
def lookupReg : List (TExpr × String) → TExpr → Option String
  | [], _ => none
  | (k, v) :: rest, t => if k = t then some v else lookupReg rest t

/-- State threaded through the collection pass: the registry in insertion
order, and how many names have been generated so far (the source draws a
fresh random name at each insertion; `cnt` indexes into the suffix
sequence). -/
structure CollectSt where
  reg : List (TExpr × String)
  cnt : Nat
deriving DecidableEq

/-- The body of the source's `Type::Macro` arm in
`collect_macro_types_from_type`: insert a freshly named entry unless the node
is already a key of the map. -/
def registerNode (rnd : Nat → String) (t : TExpr) (st : CollectSt) : CollectSt :=
  if (lookupReg st.reg t).isSome then st
  else ⟨st.reg ++ [(t, generate_random_type_name (rnd st.cnt))], st.cnt + 1⟩

mutual

/-- `collect_macro_types_from_type` from the source: register macro nodes,
recurse into angle-bracketed path arguments, array, slice, pointer,
reference elements and tuple elements; leave every other shape alone. -/
def collect_macro_types_from_type (rnd : Nat → String) :
    TExpr → CollectSt → CollectSt
  | .macroInv p toks, st => registerNode rnd (.macroInv p toks) st
  | .path segs, st => collectSegs rnd segs st
  | .array e _, st => collect_macro_types_from_type rnd e st
  | .slice e, st => collect_macro_types_from_type rnd e st
  | .ptr _ e, st => collect_macro_types_from_type rnd e st
  | .ref _ _ e, st => collect_macro_types_from_type rnd e st
  | .tuple es, st => collectTList rnd es st
  | .other _, st => st
  | .lifetimeArg _, st => st
  | .nonTypeArg _, st => st

def collectSegs (rnd : Nat → String) : Segs → CollectSt → CollectSt
  | .nil, st => st
  | .cons _ args rest, st => collectSegs rnd rest (collectArgs rnd args st)

def collectArgs (rnd : Nat → String) : OptArgs → CollectSt → CollectSt
  | .noArgs, st => st
  | .withArgs as, st => collectTList rnd as st

def collectTList (rnd : Nat → String) : TList → CollectSt → CollectSt
  | .nil, st => st
  | .cons t ts, st =>
      collectTList rnd ts (collect_macro_types_from_type rnd t st)

end

/-- Whether a generic parameter is a lifetime parameter. -/
def isLifetimeParam : GenericParam → Bool
  | .lifetimeP _ _ => true
  | _ => false

/-- The order in which `syn`'s `TypeGenerics` (the value returned by
`split_for_impl` and interpolated after the alias name) prints parameters:
all lifetime parameters first, then the remaining parameters, each group in
its original order.  For any valid Rust declaration the parameter list
already has its lifetimes first, so this is the identity there. -/
def typeGenericsOrder (ps : List GenericParam) : List GenericParam :=
  ps.filter (fun p => isLifetimeParam p) ++ ps.filter (fun p => !isLifetimeParam p)

/-- How `syn`'s `TypeGenerics` prints one parameter as a generic argument:
a lifetime parameter as the lifetime itself, a type or const parameter as its
bare identifier, which `syn::parse_quote!` re-reads as a one-segment type
path. -/
def paramToArg : GenericParam → TExpr
  | .typeP n _ _ => .path (.cons n .noArgs .nil)
  | .lifetimeP n _ => .lifetimeArg n
  | .constP n _ _ => .path (.cons n .noArgs .nil)

/-- The replacement type built by `transform_type` for a registered macro
node: `parse_quote!(#alias)` when no generic parameter is used, otherwise
`parse_quote!(#alias #ty_generics)` — a one-segment path carrying the used
parameters as arguments, in `TypeGenerics` print order. -/
def aliasRef (aliasName : String) (used : List GenericParam) : TExpr :=
  if used.isEmpty then .path (.cons aliasName .noArgs .nil)
  else
    .path (.cons aliasName
      (.withArgs (TList.ofList ((typeGenericsOrder used).map paramToArg))) .nil)

mutual

/-- `transform_type` from the source: replace a macro node that has an alias
by a reference to the alias (recomputing the used parameters with
`get_used_generic_params`); recurse into angle-bracketed path arguments,
array, slice, pointer, reference elements and tuple elements; leave every
other shape untouched. -/
def transform_type (reg : List (TExpr × String)) (generics : List GenericParam) :
    TExpr → TExpr
  | .macroInv p toks =>
      match lookupReg reg (.macroInv p toks) with
      | some aliasName =>
          aliasRef aliasName (get_used_generic_params (.macroInv p toks) generics)
      | none => .macroInv p toks
  | .path segs => .path (transformSegs reg generics segs)
  | .array e l => .array (transform_type reg generics e) l
  | .slice e => .slice (transform_type reg generics e)
  | .ptr m e => .ptr m (transform_type reg generics e)
  | .ref l m e => .ref l m (transform_type reg generics e)
  | .tuple es => .tuple (transformTList reg generics es)
  | .other inner => .other inner
  | .lifetimeArg s => .lifetimeArg s
  | .nonTypeArg toks => .nonTypeArg toks

def transformSegs (reg : List (TExpr × String)) (generics : List GenericParam) :
    Segs → Segs
  | .nil => .nil
  | .cons n args rest =>
      .cons n (transformArgs reg generics args) (transformSegs reg generics rest)

def transformArgs (reg : List (TExpr × String)) (generics : List GenericParam) :
    OptArgs → OptArgs
  | .noArgs => .noArgs
  | .withArgs as => .withArgs (transformTList reg generics as)

def transformTList (reg : List (TExpr × String)) (generics : List GenericParam) :
    TList → TList
  | .nil => .nil
  | .cons t ts =>
      .cons (transform_type reg generics t) (transformTList reg generics ts)

end

/- The declaration model, `syn::DeriveInput` restricted to what the source
reads and rewrites: name, ordered generic parameters, and the body.  Unions
are a named field list, as the source converts them.  Attributes, visibility
and the where-clause are carried through the source unchanged and are not
modelled. -/
inductive FieldsK where
  | named (fs : List (String × TExpr))
  | unnamed (ts : List TExpr)
  | unit
deriving DecidableEq

structure VariantD where
  vname : String
  vfields : FieldsK
deriving DecidableEq

inductive DataK where
  | structD (fields : FieldsK)
  | enumD (variants : List VariantD)
  | unionD (fields : List (String × TExpr))
deriving DecidableEq

structure DeriveInput where
  name : String
  generics : List GenericParam
  data : DataK
deriving DecidableEq

/-- `collect_macro_types_from_fields` from the source: fold the collection
pass over the field types in declaration order. -/
def collect_macro_types_from_fields (rnd : Nat → String) (fields : FieldsK)
    (st : CollectSt) : CollectSt :=
  match fields with
  | .named fs =>
      fs.foldl (fun st f => collect_macro_types_from_type rnd f.2 st) st
  | .unnamed ts =>
      ts.foldl (fun st t => collect_macro_types_from_type rnd t st) st
  | .unit => st

/-- `collect_macro_types` from the source: structs over their fields, enums
variant by variant, unions as a named field list. -/
def collect_macro_types (rnd : Nat → String) (data : DataK) (st : CollectSt) :
    CollectSt :=
  match data with
  | .structD fs => collect_macro_types_from_fields rnd fs st
  | .enumD vs =>
      vs.foldl (fun st v => collect_macro_types_from_fields rnd v.vfields st) st
  | .unionD fs => collect_macro_types_from_fields rnd (.named fs) st

/-- `transform_fields` from the source: rewrite every field type in place. -/
def transform_fields (reg : List (TExpr × String)) (generics : List GenericParam)
    (fields : FieldsK) : FieldsK :=
  match fields with
  | .named fs => .named (fs.map (fun f => (f.1, transform_type reg generics f.2)))
  | .unnamed ts => .unnamed (ts.map (fun t => transform_type reg generics t))
  | .unit => .unit

/-- `transform_input` from the source: clone the input and rewrite the field
types of its body; everything else is carried over. -/
def transform_input (reg : List (TExpr × String)) (input : DeriveInput) :
    DeriveInput :=
  { input with
    data :=
      match input.data with
      | .structD fs => .structD (transform_fields reg input.generics fs)
      | .enumD vs =>
          .enumD (vs.map (fun v =>
            ⟨v.vname, transform_fields reg input.generics v.vfields⟩))
      | .unionD fs =>
          match transform_fields reg input.generics (.named fs) with
          | .named fs2 => .unionD fs2
          | _ => .unionD fs }

/-- One emitted `type` alias item: its generated name, its declared parameter
list (`none` when the source takes the branch that emits no `<...>` at all),
and the macro invocation on its right-hand side.  The constant
`#[doc(hidden)]` attribute carries no behaviour and is not modelled. -/
structure AliasItem where
  aname : String
  params : Option (List GenericParam)
  body : TExpr
deriving DecidableEq

/-- The alias-emission step of `impl_type_macro_derive_tricks` for one
registry entry: compute the used parameters; with none, emit the alias with
no parameter list; otherwise emit it with the filtered parameters, each with
`eq_token` and `default` cleared. -/
def mkAlias (macro_type : TExpr) (alias_name : String)
    (generics : List GenericParam) : AliasItem :=
  let used := get_used_generic_params macro_type generics
  if used.isEmpty then ⟨alias_name, none, macro_type⟩
  else
    ⟨alias_name, some ((create_filtered_generics used).map stripDefault),
      macro_type⟩

/-- One item of the final output stream. -/
inductive OutItem where
  | aliasItem (a : AliasItem)
  | deriveAttr (traits : List String)
  | declItem (d : DeriveInput)
deriving DecidableEq

/-- `impl_type_macro_derive_tricks` from the source.  `rnd` is the sequence
of random suffixes the name generator returns; `iterOrder` is the order in
which the `HashMap` iteration of step 2 yields its entries — Rust's
`HashMap` promises only an arbitrary permutation of the entries, so the
embedding takes the order as a parameter.  The output is the concatenation
the final `quote!` produces: the alias items, then the derive attribute when
the trait list is non-empty (nothing otherwise), then the transformed
declaration. -/
def impl_type_macro_derive_tricks (derive_traits : List String)
    (input : DeriveInput) (rnd : Nat → String)
    (iterOrder : List (TExpr × String)) : List OutItem :=
  let macro_types := (collect_macro_types rnd input.data ⟨[], 0⟩).reg
  let type_aliases :=
    iterOrder.map (fun e => OutItem.aliasItem (mkAlias e.1 e.2 input.generics))
  let transformed_input := transform_input macro_types input
  let derive_attrs :=
    if derive_traits.isEmpty then [] else [OutItem.deriveAttr derive_traits]
  type_aliases ++ derive_attrs ++ [OutItem.declItem transformed_input]

def Delim.openStr : Delim → String
  | .paren => "("
  | .bracket => "["
  | .brace => "\x7b"

def Delim.closeStr : Delim → String
  | .paren => ")"
  | .bracket => "]"
  | .brace => "\x7d"

/- `TokenTree::to_string`, as `parse_derive_traits` concatenates it onto the
candidate being accumulated: the identifier or literal text, the punctuation
character, or the delimited group (inner tokens joined with single spaces —
`proc_macro2`'s display; the exact inner spacing only affects candidates that
no path parser accepts anyway). -/
mutual

def tokToString : Tok → String
  | .ident s => s
  | .punct c => String.mk [c]
  | .lit s => s
  | .group d ts => d.openStr ++ toksToString ts ++ d.closeStr

def toksToString : List Tok → String
  | [] => ""
  | [t] => tokToString t
  | t :: ts => tokToString t ++ " " ++ toksToString ts

end

/-- Whether a string has no characters (the data-list reading of
`String::is_empty`). -/
def strIsEmpty (s : String) : Bool := s.data.isEmpty

/-- `str::trim` over the character list: drop whitespace from both ends. -/
def trimStr (s : String) : String :=
  ⟨((s.data.dropWhile Char.isWhitespace).reverse.dropWhile
      Char.isWhitespace).reverse⟩

def consHeadC (c : Char) : List (List Char) → List (List Char)
  | seg :: segs => (c :: seg) :: segs
  | [] => [[c]]

/-- Split a character list at every `::` separator. -/
def splitPathChars : List Char → List (List Char)
  | [] => [[]]
  | ':' :: ':' :: rest => [] :: splitPathChars rest
  | c :: rest => consHeadC c (splitPathChars rest)

/-- Modelled from the spec: `syn::parse_str::<syn::Path>` is library code
outside this repository.  Per the interface the spec gives it, a candidate
parses as a path exactly when it is a `::`-separated sequence of plain
identifiers (letters, digits and underscores, not starting with a digit);
anything else — in particular the empty string — is rejected.  On success the
model returns the candidate itself as the parsed path. -/
def parsePathStr (s : String) : Option String :=
  if (splitPathChars s.data).all (fun seg =>
      !seg.isEmpty
        && seg.all (fun c => c.isAlphanum || c = '_')
        && !(seg.head?.elim false Char.isDigit))
  then some s else none

/-- The accumulating loop of `parse_derive_traits`: walk the argument tokens,
splitting candidates at top-level comma punctuation; at each boundary, a
non-empty candidate is trimmed and parsed, and kept only when parsing
succeeds. -/
def pdtGo (pp : String → Option String) : List Tok → String → List String
  | [], current_trait =>
      if strIsEmpty current_trait then []
      else (pp (trimStr current_trait)).toList
  | t :: rest, current_trait =>
      if t = Tok.punct ',' then
        (if strIsEmpty current_trait then []
          else (pp (trimStr current_trait)).toList)
          ++ pdtGo pp rest ""
      else pdtGo pp rest (current_trait ++ tokToString t)

/-- `parse_derive_traits` from the source, parametric in the path parser. -/
def parse_derive_traits (pp : String → Option String) (args : List Tok) :
    List String :=
  pdtGo pp args ""

/-- Specification-side splitter: cut the token list at every top-level comma
punctuation token (a comma nested inside a group is a single `Tok.group`
token here and cannot cut), yielding the candidate chunks in order. -/
def consHead (t : Tok) : List (List Tok) → List (List Tok)
  | c :: cs => (t :: c) :: cs
  | [] => [[t]]

def splitTopLevel : List Tok → List (List Tok)
  | [] => [[]]
  | t :: rest =>
      if t = Tok.punct ',' then [] :: splitTopLevel rest
      else consHead t (splitTopLevel rest)

/-- The candidate string a chunk accumulates to: the chunk's token strings
concatenated directly, exactly as the source's `push_str` loop builds them. -/
def candStr (c : List Tok) : String :=
  c.foldl (fun acc t => acc ++ tokToString t) ""

/-- What one candidate contributes to the derive list: nothing when it is
empty, otherwise the parse of its trimmed text when that succeeds. -/
def candParse (pp : String → Option String) (s : String) : List String :=
  if strIsEmpty s then [] else (pp (trimStr s)).toList

/-- Specification-side reading of the trait-list parse: split at top-level
commas, render each chunk, drop empties, trim, drop parse failures. -/
def pdtSpec (pp : String → Option String) (toks : List Tok) : List String :=
  ((splitTopLevel toks).map (fun c => candParse pp (candStr c))).flatten

theorem candStr_shift (l : List Tok) :
    ∀ a : String, l.foldl (fun acc t => acc ++ tokToString t) a = a ++ candStr l := by
  induction l with
  | nil => intro a; simp [candStr, String.append_empty]
  | cons t ts ih =>
      intro a
      rw [candStr, List.foldl_cons, List.foldl_cons, ih, ih ("" ++ tokToString t)]
      rw [String.empty_append, String.append_assoc]

theorem candStr_cons (t : Tok) (c : List Tok) :
    candStr (t :: c) = tokToString t ++ candStr c := by
  rw [candStr, List.foldl_cons, candStr_shift, String.empty_append]

theorem splitTopLevel_ne_nil (toks : List Tok) : splitTopLevel toks ≠ [] := by
  cases toks with
  | nil => simp [splitTopLevel]
  | cons t rest =>
      rw [splitTopLevel]
      split
      · simp
      · rcases h : splitTopLevel rest with _ | ⟨c, cs⟩ <;> simp [consHead]

theorem pdtGo_eq_spec (pp : String → Option String) :
    ∀ (toks : List Tok) (cur : String),
      pdtGo pp toks cur =
        candParse pp (cur ++ candStr ((splitTopLevel toks).headI))
          ++ (((splitTopLevel toks).tail).map
                (fun c => candParse pp (candStr c))).flatten := by
  intro toks
  induction toks with
  | nil =>
      intro cur
      simp [pdtGo, splitTopLevel, candStr, candParse, String.append_empty]
  | cons t rest ih =>
      intro cur
      rw [pdtGo, splitTopLevel]
      by_cases ht : t = Tok.punct ','
      · rw [if_pos ht, if_pos ht]
        rw [ih ""]
        rcases h : splitTopLevel rest with _ | ⟨c, cs⟩
        · exact absurd h (splitTopLevel_ne_nil rest)
        · simp [candStr, candParse, String.append_empty, String.empty_append]
      · rw [if_neg ht, if_neg ht]
        rw [ih (cur ++ tokToString t)]
        rcases h : splitTopLevel rest with _ | ⟨c, cs⟩
        · exact absurd h (splitTopLevel_ne_nil rest)
        · simp only [consHead, List.headI, List.tail, candStr_cons]
          rw [String.append_assoc]

/-- C7: parsing the attribute arguments splits candidates on top-level commas
only (a comma nested in a group token does not split), trims each candidate,
drops empty candidates, and silently drops candidates the path parser
rejects; in particular the list `Debug, ,Clone` yields `[Debug, Clone]`. -/
theorem C7_trait_list_parse :
    (∀ (pp : String → Option String) (toks : List Tok),
        parse_derive_traits pp toks = pdtSpec pp toks)
    ∧ splitTopLevel
        [Tok.group .bracket [Tok.punct ','], Tok.punct ',', Tok.ident "A"]
        = [[Tok.group .bracket [Tok.punct ',']], [Tok.ident "A"]]
    ∧ parse_derive_traits parsePathStr
        [Tok.ident "Debug", Tok.punct ',', Tok.punct ',', Tok.ident "Clone"]
        = ["Debug", "Clone"] := by
  refine ⟨?_, by decide, by decide⟩
  intro pp toks
  rw [parse_derive_traits, pdtGo_eq_spec, pdtSpec]
  rcases h : splitTopLevel toks with _ | ⟨c, cs⟩
  · exact absurd h (splitTopLevel_ne_nil toks)
  · simp [String.empty_append]

theorem foldl_push_filter {α : Type} (pred : α → Bool) :
    ∀ (l acc : List α),
      l.foldl (fun a x => if pred x then a ++ [x] else a) acc
        = acc ++ l.filter pred := by
  intro l
  induction l with
  | nil => intro acc; simp
  | cons x xs ih =>
      intro acc
      rw [List.foldl_cons, ih, List.filter_cons]
      by_cases h : pred x = true
      · rw [if_pos h, if_pos h]; simp
      · rw [if_neg h, if_neg h]

theorem get_used_eq_filter (mpath : List String) (toks : List Tok)
    (generics : List GenericParam) :
    get_used_generic_params (.macroInv mpath toks) generics
      = generics.filter
          (fun p => is_generic_param_used_in_token_stream toks (paramName p)) := by
  rw [get_used_generic_params]
  rw [foldl_push_filter]
  simp

theorem create_filtered_generics_eq_id (l : List GenericParam) :
    create_filtered_generics l = l := by
  have h : ∀ acc : List GenericParam,
      l.foldl (fun g p => g ++ [p]) acc = acc ++ l := by
    induction l with
    | nil => intro acc; simp
    | cons x xs ih => intro acc; rw [List.foldl_cons, ih]; simp
  rw [create_filtered_generics, h, List.nil_append]

/-- C1: a generated alias's declared parameter list is the declaration's full
parameter list filtered to the parameters the usage check finds in the macro
invocation's argument tokens, in original relative order, with defaults (and
their equality tokens) cleared from kept type and const parameters and
lifetime parameters kept unmodified; an empty result yields an alias with no
parameter list at all. -/
theorem C1_alias_param_list :
    (∀ (mpath : List String) (toks : List Tok) (aliasName : String)
        (generics : List GenericParam),
        mkAlias (.macroInv mpath toks) aliasName generics =
          ⟨aliasName,
            if (generics.filter (fun p =>
                  is_generic_param_used_in_token_stream toks (paramName p))).isEmpty
            then none
            else some ((generics.filter (fun p =>
                  is_generic_param_used_in_token_stream toks (paramName p))).map
                stripDefault),
            .macroInv mpath toks⟩)
    ∧ (∀ n b d, stripDefault (.typeP n b d) = .typeP n b none)
    ∧ (∀ n t d, stripDefault (.constP n t d) = .constP n t none)
    ∧ (∀ n b, stripDefault (.lifetimeP n b) = .lifetimeP n b) := by
  refine ⟨?_, fun n b d => rfl, fun n t d => rfl, fun n b => rfl⟩
  intro mpath toks aliasName generics
  rw [mkAlias, get_used_eq_filter, create_filtered_generics_eq_id]
  split
  · rfl
  · rfl

/-- C4: on well-formed tokens, the usage check holds for a type or const
parameter name exactly when some identifier token, found by exhaustive
recursion into groups, equals the name; it holds for a lifetime name exactly
when a `'` punctuation is immediately followed by the matching identifier;
and a lone literal token never matches. -/
theorem C4_usage_check :
    ∀ (toks : List Tok) (n : String), WFToks toks = true →
      (strHeadIsQuote n = false →
        (is_generic_param_used_in_token_stream toks n = true ↔
          IdentOccurs n toks))
      ∧ (strHeadIsQuote n = true →
        (is_generic_param_used_in_token_stream toks n = true ↔
          LifetimeOccurs n toks))
      ∧ (∀ s, is_generic_param_used_in_token_stream [Tok.lit s] n = false) := by
  intro toks n hwf
  refine ⟨?_, ?_, ?_⟩
  · intro hq
    rw [is_used_iff_occurs]
    constructor
    · rintro (h | h)
      · exact h
      · exact absurd (lifetimeOccurs_head_quote toks n h) (by simp [hq])
    · exact Or.inl
  · intro hq
    rw [is_used_iff_occurs]
    constructor
    · rintro (h | h)
      · exact absurd h (identOccurs_not_lifetime_shaped toks n hwf hq)
      · exact h
    · exact Or.inr
  · intro s
    rw [is_generic_param_used_in_token_stream,
      is_generic_param_used_in_token_stream]

/-- Witness for C4 at a concrete token list and parameter names. -/
theorem C4_usage_check_witness :
    WFToks [Tok.ident "T", Tok.group .bracket [Tok.punct '\'', Tok.ident "a"]]
        = true
    ∧ ((strHeadIsQuote "T" = false →
        (is_generic_param_used_in_token_stream
            [Tok.ident "T", Tok.group .bracket [Tok.punct '\'', Tok.ident "a"]]
            "T" = true ↔
          IdentOccurs "T"
            [Tok.ident "T", Tok.group .bracket [Tok.punct '\'', Tok.ident "a"]]))
      ∧ (strHeadIsQuote "T" = true →
        (is_generic_param_used_in_token_stream
            [Tok.ident "T", Tok.group .bracket [Tok.punct '\'', Tok.ident "a"]]
            "T" = true ↔
          LifetimeOccurs "T"
            [Tok.ident "T", Tok.group .bracket [Tok.punct '\'', Tok.ident "a"]]))
      ∧ (∀ s, is_generic_param_used_in_token_stream [Tok.lit s] "T" = false)) :=
  ⟨by simp [WFToks, strHeadIsQuote],
    C4_usage_check
      [Tok.ident "T", Tok.group .bracket [Tok.punct '\'', Tok.ident "a"]]
      "T" (by simp [WFToks, strHeadIsQuote])⟩

/-- Whether a type expression is a macro-invocation node. -/
def IsMacroB : TExpr → Bool
  | .macroInv _ _ => true
  | _ => false

/- Specification-side reading of the walker's find pass: the macro nodes of a
type expression in traversal order (top-down, left-to-right), with
duplicates. -/
mutual

def macrosIn : TExpr → List TExpr
  | .macroInv p toks => [.macroInv p toks]
  | .path segs => macrosInSegs segs
  | .array e _ => macrosIn e
  | .slice e => macrosIn e
  | .ptr _ e => macrosIn e
  | .ref _ _ e => macrosIn e
  | .tuple es => macrosInTL es
  | .other _ => []
  | .lifetimeArg _ => []
  | .nonTypeArg _ => []

def macrosInSegs : Segs → List TExpr
  | .nil => []
  | .cons _ args rest => macrosInArgs args ++ macrosInSegs rest

def macrosInArgs : OptArgs → List TExpr
  | .noArgs => []
  | .withArgs as => macrosInTL as

def macrosInTL : TList → List TExpr
  | .nil => []
  | .cons t ts => macrosIn t ++ macrosInTL ts

end

/-- Registering a list of nodes in order. -/
def registerAll (rnd : Nat → String) (l : List TExpr) (st : CollectSt) :
    CollectSt :=
  l.foldl (fun st x => registerNode rnd x st) st

theorem registerAll_append (rnd : Nat → String) (a b : List TExpr)
    (st : CollectSt) :
    registerAll rnd (a ++ b) st = registerAll rnd b (registerAll rnd a st) := by
  rw [registerAll, registerAll, registerAll, List.foldl_append]

mutual

theorem collect_eq_registerAll (rnd : Nat → String) :
    ∀ (t : TExpr) (st : CollectSt),
      collect_macro_types_from_type rnd t st = registerAll rnd (macrosIn t) st
  | .macroInv p toks, st => by
      rw [collect_macro_types_from_type, macrosIn, registerAll, List.foldl_cons,
        List.foldl_nil]
  | .path segs, st => by
      rw [collect_macro_types_from_type, macrosIn,
        collectSegs_eq_registerAll rnd segs st]
  | .array e l, st => by
      rw [collect_macro_types_from_type, macrosIn,
        collect_eq_registerAll rnd e st]
  | .slice e, st => by
      rw [collect_macro_types_from_type, macrosIn,
        collect_eq_registerAll rnd e st]
  | .ptr m e, st => by
      rw [collect_macro_types_from_type, macrosIn,
        collect_eq_registerAll rnd e st]
  | .ref l m e, st => by
      rw [collect_macro_types_from_type, macrosIn,
        collect_eq_registerAll rnd e st]
  | .tuple es, st => by
      rw [collect_macro_types_from_type, macrosIn,
        collectTList_eq_registerAll rnd es st]
  | .other inner, st => by
      rw [collect_macro_types_from_type, macrosIn, registerAll, List.foldl_nil]
  | .lifetimeArg s, st => by
      rw [collect_macro_types_from_type, macrosIn, registerAll, List.foldl_nil]
  | .nonTypeArg toks, st => by
      rw [collect_macro_types_from_type, macrosIn, registerAll, List.foldl_nil]

theorem collectSegs_eq_registerAll (rnd : Nat → String) :
    ∀ (segs : Segs) (st : CollectSt),
      collectSegs rnd segs st = registerAll rnd (macrosInSegs segs) st
  | .nil, st => by
      rw [collectSegs, macrosInSegs, registerAll, List.foldl_nil]
  | .cons n args rest, st => by
      rw [collectSegs, macrosInSegs, registerAll_append,
        collectArgs_eq_registerAll rnd args st,
        collectSegs_eq_registerAll rnd rest]

theorem collectArgs_eq_registerAll (rnd : Nat → String) :
    ∀ (args : OptArgs) (st : CollectSt),
      collectArgs rnd args st = registerAll rnd (macrosInArgs args) st
  | .noArgs, st => by
      rw [collectArgs, macrosInArgs, registerAll, List.foldl_nil]
  | .withArgs as, st => by
      rw [collectArgs, macrosInArgs, collectTList_eq_registerAll rnd as st]

theorem collectTList_eq_registerAll (rnd : Nat → String) :
    ∀ (es : TList) (st : CollectSt),
      collectTList rnd es st = registerAll rnd (macrosInTL es) st
  | .nil, st => by
      rw [collectTList, macrosInTL, registerAll, List.foldl_nil]
  | .cons t ts, st => by
      rw [collectTList, macrosInTL, registerAll_append,
        collect_eq_registerAll rnd t st,
        collectTList_eq_registerAll rnd ts]

end

/- Positions in the traversed part of a type expression: a step either enters
generic argument `j` of path segment `i`, the element of an array, slice,
pointer or reference, or tuple element `i`.  These are exactly the child
positions the source's two walkers visit. -/
inductive Dir where
  | inSeg (i j : Nat)
  | inElem
  | inTup (i : Nat)
deriving DecidableEq

/-- Generic argument `j` of segment `i`, when segment `i` exists and carries
an angle-bracketed argument list. -/
def segArg (segs : Segs) (i j : Nat) : Option TExpr :=
  match Segs.get? segs i with
  | some (_, .withArgs args) => TList.get? args j
  | _ => none

/-- One traversal step into a type expression. -/
def step : Dir → TExpr → Option TExpr
  | .inSeg i j, .path segs => segArg segs i j
  | .inElem, .array e _ => some e
  | .inElem, .slice e => some e
  | .inElem, .ptr _ e => some e
  | .inElem, .ref _ _ e => some e
  | .inTup i, .tuple es => TList.get? es i
  | _, _ => none

/-- The subterm of a type expression at a traversed position. -/
def subAt : List Dir → TExpr → Option TExpr
  | [], t => some t
  | d :: p, t => (step d t).bind (subAt p)

/-- Argument `j` of one segment's argument list. -/
def argAt : OptArgs → Nat → Option TExpr
  | .noArgs, _ => none
  | .withArgs as, j => TList.get? as j

theorem step_macroInv (d : Dir) (mp : List String) (toks : List Tok) :
    step d (.macroInv mp toks) = none := by cases d <;> rfl

theorem step_terminal (d : Dir) :
    (∀ inner, step d (.other inner) = none)
    ∧ (∀ s, step d (.lifetimeArg s) = none)
    ∧ (∀ toks, step d (.nonTypeArg toks) = none) := by
  refine ⟨fun inner => ?_, fun s => ?_, fun toks => ?_⟩ <;> cases d <;> rfl

theorem subAt_macroInv (p : List Dir) (mp : List String) (toks : List Tok)
    (x : TExpr) :
    subAt p (.macroInv mp toks) = some x ↔ p = [] ∧ x = .macroInv mp toks := by
  cases p with
  | nil => simp [subAt, eq_comm]
  | cons d p' => simp [subAt, step_macroInv]

theorem segArg_cons_zero (n : String) (args : OptArgs) (rest : Segs) (j : Nat) :
    segArg (.cons n args rest) 0 j = argAt args j := by
  cases args <;> rfl

theorem segArg_cons_succ (n : String) (args : OptArgs) (rest : Segs)
    (i j : Nat) : segArg (.cons n args rest) (i + 1) j = segArg rest i j := by
  rw [segArg, segArg, Segs.get?]

mutual

theorem mem_macrosIn_iff :
    ∀ (t x : TExpr), x ∈ macrosIn t ↔
      (IsMacroB x = true ∧ ∃ p, subAt p t = some x)
  | .macroInv mp toks, x => by
      rw [macrosIn]
      constructor
      · intro h
        rw [List.mem_singleton] at h
        subst h
        exact ⟨rfl, [], rfl⟩
      · rintro ⟨hm, p, hp⟩
        rw [subAt_macroInv] at hp
        rw [List.mem_singleton, hp.2]
  | .path segs, x => by
      rw [macrosIn, mem_macrosInSegs_iff segs x]
      constructor
      · rintro ⟨hm, i, j, a, ha, p, hp⟩
        exact ⟨hm, .inSeg i j :: p, by simp [subAt, step, ha, hp]⟩
      · rintro ⟨hm, p, hp⟩
        refine ⟨hm, ?_⟩
        cases p with
        | nil =>
            rw [subAt] at hp
            cases hp
            exact Bool.noConfusion hm
        | cons d p' =>
            cases d with
            | inSeg i j =>
                rw [subAt] at hp
                rw [step] at hp
                rcases h : segArg segs i j with _ | a
                · rw [h] at hp; exact absurd hp (by simp [Option.bind])
                · rw [h] at hp
                  exact ⟨i, j, a, h, p', by simpa using hp⟩
            | inElem =>
                rw [subAt] at hp
                exact absurd hp (by simp [step])
            | inTup i =>
                rw [subAt] at hp
                exact absurd hp (by simp [step])
  | .array e l, x => by
      rw [macrosIn, mem_macrosIn_iff e x]
      constructor
      · rintro ⟨hm, p, hp⟩
        exact ⟨hm, .inElem :: p, by simp [subAt, step, hp]⟩
      · rintro ⟨hm, p, hp⟩
        refine ⟨hm, ?_⟩
        cases p with
        | nil =>
            rw [subAt] at hp
            cases hp
            exact Bool.noConfusion hm
        | cons d p' =>
            cases d with
            | inSeg i j =>
                rw [subAt] at hp
                exact absurd hp (by simp [step])
            | inElem =>
                rw [subAt] at hp
                rw [step] at hp
                exact ⟨p', by simpa using hp⟩
            | inTup i =>
                rw [subAt] at hp
                exact absurd hp (by simp [step])
  | .slice e, x => by
      rw [macrosIn, mem_macrosIn_iff e x]
      constructor
      · rintro ⟨hm, p, hp⟩
        exact ⟨hm, .inElem :: p, by simp [subAt, step, hp]⟩
      · rintro ⟨hm, p, hp⟩
        refine ⟨hm, ?_⟩
        cases p with
        | nil =>
            rw [subAt] at hp
            cases hp
            exact Bool.noConfusion hm
        | cons d p' =>
            cases d with
            | inSeg i j =>
                rw [subAt] at hp
                exact absurd hp (by simp [step])
            | inElem =>
                rw [subAt] at hp
                rw [step] at hp
                exact ⟨p', by simpa using hp⟩
            | inTup i =>
                rw [subAt] at hp
                exact absurd hp (by simp [step])
  | .ptr m e, x => by
      rw [macrosIn, mem_macrosIn_iff e x]
      constructor
      · rintro ⟨hm, p, hp⟩
        exact ⟨hm, .inElem :: p, by simp [subAt, step, hp]⟩
      · rintro ⟨hm, p, hp⟩
        refine ⟨hm, ?_⟩
        cases p with
        | nil =>
            rw [subAt] at hp
            cases hp
            exact Bool.noConfusion hm
        | cons d p' =>
            cases d with
            | inSeg i j =>
                rw [subAt] at hp
                exact absurd hp (by simp [step])
            | inElem =>
                rw [subAt] at hp
                rw [step] at hp
                exact ⟨p', by simpa using hp⟩
            | inTup i =>
                rw [subAt] at hp
                exact absurd hp (by simp [step])
  | .ref l m e, x => by
      rw [macrosIn, mem_macrosIn_iff e x]
      constructor
      · rintro ⟨hm, p, hp⟩
        exact ⟨hm, .inElem :: p, by simp [subAt, step, hp]⟩
      · rintro ⟨hm, p, hp⟩
        refine ⟨hm, ?_⟩
        cases p with
        | nil =>
            rw [subAt] at hp
            cases hp
            exact Bool.noConfusion hm
        | cons d p' =>
            cases d with
            | inSeg i j =>
                rw [subAt] at hp
                exact absurd hp (by simp [step])
            | inElem =>
                rw [subAt] at hp
                rw [step] at hp
                exact ⟨p', by simpa using hp⟩
            | inTup i =>
                rw [subAt] at hp
                exact absurd hp (by simp [step])
  | .tuple es, x => by
      rw [macrosIn, mem_macrosInTL_iff es x]
      constructor
      · rintro ⟨hm, i, a, ha, p, hp⟩
        exact ⟨hm, .inTup i :: p, by simp [subAt, step, ha, hp]⟩
      · rintro ⟨hm, p, hp⟩
        refine ⟨hm, ?_⟩
        cases p with
        | nil =>
            rw [subAt] at hp
            cases hp
            exact Bool.noConfusion hm
        | cons d p' =>
            cases d with
            | inSeg i j =>
                rw [subAt] at hp
                exact absurd hp (by simp [step])
            | inElem =>
                rw [subAt] at hp
                exact absurd hp (by simp [step])
            | inTup i =>
                rw [subAt] at hp
                rw [step] at hp
                rcases h : TList.get? es i with _ | a
                · rw [h] at hp; exact absurd hp (by simp [Option.bind])
                · rw [h] at hp
                  exact ⟨i, a, h, p', by simpa using hp⟩
  | .other inner, x => by
      rw [macrosIn]
      simp only [List.not_mem_nil, false_iff]
      rintro ⟨hm, p, hp⟩
      cases p with
      | nil =>
          rw [subAt] at hp
          cases hp
          exact Bool.noConfusion hm
      | cons d p' =>
          rw [subAt, (step_terminal d).1 inner] at hp
          exact absurd hp (by simp [Option.bind])
  | .lifetimeArg s, x => by
      rw [macrosIn]
      simp only [List.not_mem_nil, false_iff]
      rintro ⟨hm, p, hp⟩
      cases p with
      | nil =>
          rw [subAt] at hp
          cases hp
          exact Bool.noConfusion hm
      | cons d p' =>
          rw [subAt, (step_terminal d).2.1 s] at hp
          exact absurd hp (by simp [Option.bind])
  | .nonTypeArg toks, x => by
      rw [macrosIn]
      simp only [List.not_mem_nil, false_iff]
      rintro ⟨hm, p, hp⟩
      cases p with
      | nil =>
          rw [subAt] at hp
          cases hp
          exact Bool.noConfusion hm
      | cons d p' =>
          rw [subAt, (step_terminal d).2.2 toks] at hp
          exact absurd hp (by simp [Option.bind])

theorem mem_macrosInSegs_iff :
    ∀ (segs : Segs) (x : TExpr), x ∈ macrosInSegs segs ↔
      (IsMacroB x = true ∧
        ∃ i j a, segArg segs i j = some a ∧ ∃ p, subAt p a = some x)
  | .nil, x => by
      rw [macrosInSegs]
      simp only [List.not_mem_nil, false_iff]
      rintro ⟨hm, i, j, a, ha, _⟩
      rw [segArg, Segs.get?] at ha
      exact absurd ha (by simp)
  | .cons n args rest, x => by
      rw [macrosInSegs, List.mem_append, mem_macrosInArgs_iff args x,
        mem_macrosInSegs_iff rest x]
      constructor
      · rintro (⟨hm, j, a, ha, p, hp⟩ | ⟨hm, i, j, a, ha, p, hp⟩)
        · exact ⟨hm, 0, j, a, by rw [segArg_cons_zero]; exact ha, p, hp⟩
        · exact ⟨hm, i + 1, j, a, by rw [segArg_cons_succ]; exact ha, p, hp⟩
      · rintro ⟨hm, i, j, a, ha, p, hp⟩
        cases i with
        | zero =>
            rw [segArg_cons_zero] at ha
            exact Or.inl ⟨hm, j, a, ha, p, hp⟩
        | succ i' =>
            rw [segArg_cons_succ] at ha
            exact Or.inr ⟨hm, i', j, a, ha, p, hp⟩

theorem mem_macrosInArgs_iff :
    ∀ (args : OptArgs) (x : TExpr), x ∈ macrosInArgs args ↔
      (IsMacroB x = true ∧
        ∃ j a, argAt args j = some a ∧ ∃ p, subAt p a = some x)
  | .noArgs, x => by
      rw [macrosInArgs]
      simp only [List.not_mem_nil, false_iff]
      rintro ⟨hm, j, a, ha, _⟩
      rw [argAt] at ha
      exact absurd ha (by simp)
  | .withArgs as, x => by
      rw [macrosInArgs, mem_macrosInTL_iff as x]
      constructor
      · rintro ⟨hm, i, a, ha, p, hp⟩
        exact ⟨hm, i, a, by rw [argAt]; exact ha, p, hp⟩
      · rintro ⟨hm, j, a, ha, p, hp⟩
        rw [argAt] at ha
        exact ⟨hm, j, a, ha, p, hp⟩

theorem mem_macrosInTL_iff :
    ∀ (es : TList) (x : TExpr), x ∈ macrosInTL es ↔
      (IsMacroB x = true ∧
        ∃ i a, TList.get? es i = some a ∧ ∃ p, subAt p a = some x)
  | .nil, x => by
      rw [macrosInTL]
      simp only [List.not_mem_nil, false_iff]
      rintro ⟨hm, i, a, ha, _⟩
      rw [TList.get?] at ha
      exact absurd ha (by simp)
  | .cons t ts, x => by
      rw [macrosInTL, List.mem_append, mem_macrosIn_iff t x,
        mem_macrosInTL_iff ts x]
      constructor
      · rintro (⟨hm, p, hp⟩ | ⟨hm, i, a, ha, p, hp⟩)
        · exact ⟨hm, 0, t, rfl, p, hp⟩
        · exact ⟨hm, i + 1, a, by rw [TList.get?]; exact ha, p, hp⟩
      · rintro ⟨hm, i, a, ha, p, hp⟩
        cases i with
        | zero =>
            rw [TList.get?] at ha
            cases ha
            exact Or.inl ⟨hm, p, hp⟩
        | succ i' =>
            rw [TList.get?] at ha
            exact Or.inr ⟨hm, i', a, ha, p, hp⟩

end

/-- The keys of the registry, in insertion order. -/
def regKeys (reg : List (TExpr × String)) : List TExpr := reg.map Prod.fst

theorem lookupReg_isSome_iff_mem (reg : List (TExpr × String)) (x : TExpr) :
    (lookupReg reg x).isSome = true ↔ x ∈ regKeys reg := by
  induction reg with
  | nil => simp [lookupReg, regKeys]
  | cons e rest ih =>
      rw [lookupReg]
      by_cases h : e.1 = x
      · simp [regKeys, h]
      · rw [if_neg h]
        rw [ih]
        simp [regKeys, Ne.symm h]

theorem lookupReg_append_of_isSome (a b : List (TExpr × String)) (x : TExpr)
    (h : (lookupReg a x).isSome = true) :
    lookupReg (a ++ b) x = lookupReg a x := by
  induction a with
  | nil => simp [lookupReg] at h
  | cons e rest ih =>
      rw [List.cons_append, lookupReg, lookupReg]
      by_cases he : e.1 = x
      · rw [if_pos he, if_pos he]
      · rw [if_neg he, if_neg he]
        rw [lookupReg, if_neg he] at h
        exact ih h

theorem lookupReg_append_of_none (a b : List (TExpr × String)) (x : TExpr)
    (h : lookupReg a x = none) :
    lookupReg (a ++ b) x = lookupReg b x := by
  induction a with
  | nil => simp
  | cons e rest ih =>
      rw [lookupReg] at h
      rw [List.cons_append, lookupReg]
      by_cases he : e.1 = x
      · rw [if_pos he] at h
        exact absurd h (by simp)
      · rw [if_neg he] at h
        rw [if_neg he]
        exact ih h

theorem registerNode_reg (rnd : Nat → String) (t : TExpr) (st : CollectSt) :
    (registerNode rnd t st).reg =
      if (lookupReg st.reg t).isSome then st.reg
      else st.reg ++ [(t, generate_random_type_name (rnd st.cnt))] := by
  rw [registerNode]
  split
  · rfl
  · rfl

theorem lookupReg_registerNode_mono (rnd : Nat → String) (t x : TExpr)
    (st : CollectSt) (v : String) (h : lookupReg st.reg x = some v) :
    lookupReg (registerNode rnd t st).reg x = some v := by
  rw [registerNode_reg]
  split
  · exact h
  · rw [lookupReg_append_of_isSome _ _ _ (by rw [h]; rfl)]
    exact h

theorem lookupReg_registerAll_mono (rnd : Nat → String) (l : List TExpr)
    (x : TExpr) (v : String) :
    ∀ st : CollectSt, lookupReg st.reg x = some v →
      lookupReg (registerAll rnd l st).reg x = some v := by
  induction l with
  | nil => intro st h; exact h
  | cons y ys ih =>
      intro st h
      rw [registerAll, List.foldl_cons]
      exact ih _ (lookupReg_registerNode_mono rnd y x st v h)

theorem lookupReg_registerNode_isSome (rnd : Nat → String) (t x : TExpr)
    (st : CollectSt) :
    (lookupReg (registerNode rnd t st).reg x).isSome = true ↔
      (lookupReg st.reg x).isSome = true ∨ x = t := by
  rw [registerNode_reg]
  split
  · next hin =>
      constructor
      · exact Or.inl
      · rintro (h | rfl)
        · exact h
        · exact hin
  · next hout =>
      rcases h : lookupReg st.reg x with _ | v
      · rw [lookupReg_append_of_none _ _ _ h]
        rw [lookupReg, lookupReg]
        by_cases he : t = x
        · simp [he]
        · rw [if_neg he]
          simp only [Option.isSome_none, Bool.false_eq_true, false_or,
            false_iff]
          exact fun hx => he hx.symm
      · rw [lookupReg_append_of_isSome _ _ _ (by rw [h]; rfl), h]
        simp

theorem lookupReg_registerAll_isSome (rnd : Nat → String) (l : List TExpr)
    (x : TExpr) :
    ∀ st : CollectSt,
      (lookupReg (registerAll rnd l st).reg x).isSome = true ↔
        (lookupReg st.reg x).isSome = true ∨ x ∈ l := by
  induction l with
  | nil => intro st; simp [registerAll]
  | cons y ys ih =>
      intro st
      rw [registerAll, List.foldl_cons]
      have h2 := ih (registerNode rnd y st)
      rw [registerAll] at h2
      rw [h2, lookupReg_registerNode_isSome]
      simp only [List.mem_cons]
      tauto

theorem regKeys_registerNode (rnd : Nat → String) (t : TExpr) (st : CollectSt) :
    regKeys (registerNode rnd t st).reg =
      if (lookupReg st.reg t).isSome then regKeys st.reg
      else regKeys st.reg ++ [t] := by
  rw [registerNode_reg]
  split
  · rfl
  · rw [regKeys, regKeys, List.map_append]
    rfl

theorem nodup_registerNode (rnd : Nat → String) (t : TExpr) (st : CollectSt)
    (h : (regKeys st.reg).Nodup) : (regKeys (registerNode rnd t st).reg).Nodup := by
  rw [regKeys_registerNode]
  split
  · exact h
  · next hn =>
      rw [List.nodup_append]
      refine ⟨h, List.nodup_singleton t, ?_⟩
      intro a ha hb
      rw [List.mem_singleton] at hb
      subst hb
      rw [← lookupReg_isSome_iff_mem] at ha
      rw [ha] at hn
      exact hn rfl

theorem nodup_registerAll (rnd : Nat → String) (l : List TExpr) :
    ∀ st : CollectSt, (regKeys st.reg).Nodup →
      (regKeys (registerAll rnd l st).reg).Nodup := by
  induction l with
  | nil => intro st h; exact h
  | cons y ys ih =>
      intro st h
      rw [registerAll, List.foldl_cons]
      exact ih _ (nodup_registerNode rnd y st h)

theorem lookupReg_mem_pair (reg : List (TExpr × String)) (x : TExpr)
    (v : String) (h : lookupReg reg x = some v) : (x, v) ∈ reg := by
  induction reg with
  | nil => exact absurd h (by simp [lookupReg])
  | cons e rest ih =>
      rw [lookupReg] at h
      by_cases he : e.1 = x
      · rw [if_pos he] at h
        cases h
        have hx : (x, e.2) = e := by rw [← he]
        rw [hx]
        exact List.mem_cons_self e rest
      · rw [if_neg he] at h
        exact List.mem_cons_of_mem e (ih h)

theorem count_regKeys_eq_one (reg : List (TExpr × String)) (x : TExpr)
    (hn : (regKeys reg).Nodup) (hm : x ∈ regKeys reg) :
    (regKeys reg).count x = 1 :=
  List.count_eq_one_of_mem hn hm

/-- The field types of a field list, in declaration order. -/
def fieldTypesF : FieldsK → List TExpr
  | .named fs => fs.map Prod.snd
  | .unnamed ts => ts
  | .unit => []

/-- All field types of a declaration body, in declaration order. -/
def fieldTypesD : DataK → List TExpr
  | .structD fs => fieldTypesF fs
  | .enumD vs => ((vs.map (fun v => fieldTypesF v.vfields)).flatten)
  | .unionD fs => fs.map Prod.snd

/-- Every macro node the find pass discovers in a field list, in traversal
order. -/
def allMacrosF (f : FieldsK) : List TExpr :=
  ((fieldTypesF f).map macrosIn).flatten

/-- Every macro node the find pass discovers in a declaration body, in
traversal order. -/
def allMacrosD : DataK → List TExpr
  | .structD fs => allMacrosF fs
  | .enumD vs => (vs.map (fun v => allMacrosF v.vfields)).flatten
  | .unionD fs => allMacrosF (.named fs)

theorem foldl_collect_eq (rnd : Nat → String) (l : List TExpr) :
    ∀ st : CollectSt,
      l.foldl (fun st t => collect_macro_types_from_type rnd t st) st
        = registerAll rnd ((l.map macrosIn).flatten) st := by
  induction l with
  | nil => intro st; simp [registerAll]
  | cons t ts ih =>
      intro st
      rw [List.foldl_cons, ih, List.map_cons, List.flatten_cons,
        registerAll_append, collect_eq_registerAll]

theorem collect_fields_eq (rnd : Nat → String) (f : FieldsK) (st : CollectSt) :
    collect_macro_types_from_fields rnd f st = registerAll rnd (allMacrosF f) st := by
  cases f with
  | named fs =>
      rw [collect_macro_types_from_fields, allMacrosF, fieldTypesF,
        ← foldl_collect_eq, List.foldl_map]
  | unnamed ts =>
      rw [collect_macro_types_from_fields, allMacrosF, fieldTypesF,
        ← foldl_collect_eq]
  | unit => simp [collect_macro_types_from_fields, allMacrosF, fieldTypesF,
      registerAll]

theorem collect_data_eq (rnd : Nat → String) (data : DataK) (st : CollectSt) :
    collect_macro_types rnd data st = registerAll rnd (allMacrosD data) st := by
  cases data with
  | structD fs => rw [collect_macro_types, allMacrosD, collect_fields_eq]
  | enumD vs =>
      rw [collect_macro_types, allMacrosD]
      induction vs generalizing st with
      | nil => simp [registerAll]
      | cons v vs ih =>
          rw [List.foldl_cons, ih, List.map_cons, List.flatten_cons,
            registerAll_append, collect_fields_eq]
  | unionD fs => rw [collect_macro_types, allMacrosD, collect_fields_eq]

/-- The registry one invocation builds: the collection pass run from the
empty map and suffix index `0`. -/
def inputReg (rnd : Nat → String) (input : DeriveInput) :
    List (TExpr × String) :=
  (collect_macro_types rnd input.data ⟨[], 0⟩).reg

theorem lookupReg_inputReg_isSome (rnd : Nat → String) (input : DeriveInput)
    (x : TExpr) :
    (lookupReg (inputReg rnd input) x).isSome = true ↔
      x ∈ allMacrosD input.data := by
  rw [inputReg, collect_data_eq, lookupReg_registerAll_isSome]
  simp [lookupReg]

theorem nodup_inputReg (rnd : Nat → String) (input : DeriveInput) :
    (regKeys (inputReg rnd input)).Nodup := by
  rw [inputReg, collect_data_eq]
  exact nodup_registerAll rnd _ _ (by simp [regKeys])


theorem tlistGet_transform (reg : List (TExpr × String))
    (generics : List GenericParam) :
    ∀ (es : TList) (i : Nat),
      TList.get? (transformTList reg generics es) i
        = (TList.get? es i).map (transform_type reg generics)
  | .nil, i => by rw [transformTList]; rfl
  | .cons t ts, 0 => by rw [transformTList]; rfl
  | .cons t ts, i + 1 => by
      rw [transformTList, TList.get?, TList.get?,
        tlistGet_transform reg generics ts i]

theorem argAt_transform (reg : List (TExpr × String))
    (generics : List GenericParam) :
    ∀ (args : OptArgs) (j : Nat),
      argAt (transformArgs reg generics args) j
        = (argAt args j).map (transform_type reg generics)
  | .noArgs, j => by rw [transformArgs]; rfl
  | .withArgs as, j => by
      rw [transformArgs, argAt, argAt, tlistGet_transform]

theorem segsGet_transform (reg : List (TExpr × String))
    (generics : List GenericParam) :
    ∀ (segs : Segs) (i : Nat),
      Segs.get? (transformSegs reg generics segs) i
        = (Segs.get? segs i).map
            (fun e => (e.1, transformArgs reg generics e.2))
  | .nil, i => by rw [transformSegs]; rfl
  | .cons n args rest, 0 => by rw [transformSegs]; rfl
  | .cons n args rest, i + 1 => by
      rw [transformSegs, Segs.get?, Segs.get?,
        segsGet_transform reg generics rest i]

theorem segArg_transform (reg : List (TExpr × String))
    (generics : List GenericParam) (segs : Segs) (i j : Nat) :
    segArg (transformSegs reg generics segs) i j
      = (segArg segs i j).map (transform_type reg generics) := by
  rw [segArg, segArg, segsGet_transform]
  rcases h : Segs.get? segs i with _ | ⟨n, args⟩
  · rfl
  · cases args with
    | noArgs => rfl
    | withArgs as =>
        simp only [Option.map_some]
        show TList.get? (transformTList reg generics as) j
          = (TList.get? as j).map (transform_type reg generics)
        exact tlistGet_transform reg generics as j

theorem step_transform (reg : List (TExpr × String))
    (generics : List GenericParam) (d : Dir) (t s : TExpr)
    (h : step d t = some s) :
    step d (transform_type reg generics t) =
      some (transform_type reg generics s) := by
  cases d with
  | inSeg i j =>
      cases t <;> try exact Option.noConfusion h
      next segs =>
        rw [step] at h
        rw [transform_type, step, segArg_transform, h]
        rfl
  | inElem =>
      cases t <;> try exact Option.noConfusion h
      case array e l =>
        rw [step] at h
        cases h
        rw [transform_type, step]
      case slice e =>
        rw [step] at h
        cases h
        rw [transform_type, step]
      case ptr m e =>
        rw [step] at h
        cases h
        rw [transform_type, step]
      case ref l m e =>
        rw [step] at h
        cases h
        rw [transform_type, step]
  | inTup i =>
      cases t <;> try exact Option.noConfusion h
      next es =>
        rw [step] at h
        rw [transform_type, step, tlistGet_transform, h]
        rfl

theorem subAt_transform (reg : List (TExpr × String))
    (generics : List GenericParam) :
    ∀ (p : List Dir) (t s : TExpr), subAt p t = some s →
      subAt p (transform_type reg generics t)
        = some (transform_type reg generics s) := by
  intro p
  induction p with
  | nil =>
      intro t s h
      rw [subAt] at h
      cases h
      rfl
  | cons d p' ih =>
      intro t s h
      rw [subAt] at h
      rcases hu : step d t with _ | u
      · rw [hu] at h
        exact absurd h (by simp)
      · rw [hu] at h
        rw [Option.some_bind] at h
        rw [subAt, step_transform reg generics d t u hu, Option.some_bind]
        exact ih u s h

mutual

theorem transform_id_of_no_macros (reg : List (TExpr × String))
    (generics : List GenericParam) :
    ∀ t : TExpr, macrosIn t = [] → transform_type reg generics t = t
  | .macroInv p toks, h => by
      rw [macrosIn] at h
      exact List.noConfusion h
  | .path segs, h => by
      rw [macrosIn] at h
      rw [transform_type, transformSegs_id_of_no_macros reg generics segs h]
  | .array e l, h => by
      rw [macrosIn] at h
      rw [transform_type, transform_id_of_no_macros reg generics e h]
  | .slice e, h => by
      rw [macrosIn] at h
      rw [transform_type, transform_id_of_no_macros reg generics e h]
  | .ptr m e, h => by
      rw [macrosIn] at h
      rw [transform_type, transform_id_of_no_macros reg generics e h]
  | .ref l m e, h => by
      rw [macrosIn] at h
      rw [transform_type, transform_id_of_no_macros reg generics e h]
  | .tuple es, h => by
      rw [macrosIn] at h
      rw [transform_type, transformTList_id_of_no_macros reg generics es h]
  | .other inner, _ => by rw [transform_type]
  | .lifetimeArg s, _ => by rw [transform_type]
  | .nonTypeArg toks, _ => by rw [transform_type]

theorem transformSegs_id_of_no_macros (reg : List (TExpr × String))
    (generics : List GenericParam) :
    ∀ segs : Segs, macrosInSegs segs = [] →
      transformSegs reg generics segs = segs
  | .nil, _ => by rw [transformSegs]
  | .cons n args rest, h => by
      rw [macrosInSegs] at h
      rw [List.append_eq_nil] at h
      rw [transformSegs, transformArgs_id_of_no_macros reg generics args h.1,
        transformSegs_id_of_no_macros reg generics rest h.2]

theorem transformArgs_id_of_no_macros (reg : List (TExpr × String))
    (generics : List GenericParam) :
    ∀ args : OptArgs, macrosInArgs args = [] →
      transformArgs reg generics args = args
  | .noArgs, _ => by rw [transformArgs]
  | .withArgs as, h => by
      rw [macrosInArgs] at h
      rw [transformArgs, transformTList_id_of_no_macros reg generics as h]

theorem transformTList_id_of_no_macros (reg : List (TExpr × String))
    (generics : List GenericParam) :
    ∀ es : TList, macrosInTL es = [] → transformTList reg generics es = es
  | .nil, _ => by rw [transformTList]
  | .cons t ts, h => by
      rw [macrosInTL] at h
      rw [List.append_eq_nil] at h
      rw [transformTList, transform_id_of_no_macros reg generics t h.1,
        transformTList_id_of_no_macros reg generics ts h.2]

end

theorem isMacroB_inv (x : TExpr) (h : IsMacroB x = true) :
    ∃ mp toks, x = .macroInv mp toks := by
  cases x <;> first
    | exact Bool.noConfusion h
    | exact ⟨_, _, rfl⟩

theorem macrosIn_eq_nil_of_positions_free (t : TExpr)
    (h : ∀ (p : List Dir) (mp : List String) (tk : List Tok),
        subAt p t ≠ some (.macroInv mp tk)) :
    macrosIn t = [] := by
  rw [List.eq_nil_iff_forall_not_mem]
  intro x hx
  rw [mem_macrosIn_iff] at hx
  obtain ⟨hm, p, hp⟩ := hx
  obtain ⟨mp, tk, rfl⟩ := isMacroB_inv x hm
  exact h p mp tk hp

/-- C5: a field type with no macro-invocation node at any traversed position
is rewritten to itself, structurally identical; catch-all shapes (function
pointers, trait objects, ...) are passed through unchanged and never an
error, and macro invocations nested inside them are not discovered (the
collection pass leaves the registry untouched) and so produce no alias. -/
theorem C5_frame_preservation :
    (∀ (reg : List (TExpr × String)) (generics : List GenericParam)
        (t : TExpr),
        (∀ (p : List Dir) (mp : List String) (tk : List Tok),
            subAt p t ≠ some (.macroInv mp tk)) →
        transform_type reg generics t = t)
    ∧ (∀ (rnd : Nat → String) (inner : TList) (st : CollectSt),
        collect_macro_types_from_type rnd (.other inner) st = st)
    ∧ (∀ (reg : List (TExpr × String)) (generics : List GenericParam)
        (inner : TList),
        transform_type reg generics (.other inner) = .other inner) := by
  refine ⟨?_, ?_, ?_⟩
  · intro reg generics t h
    exact transform_id_of_no_macros reg generics t
      (macrosIn_eq_nil_of_positions_free t h)
  · intro rnd inner st
    rw [collect_macro_types_from_type]
  · intro reg generics inner
    rw [transform_type]

/-- Witness for C5: a trait-object-like catch-all shape holding a macro
invocation is passed through unchanged even though a macro node sits inside
its payload. -/
theorem C5_frame_preservation_witness :
    (∀ (p : List Dir) (mp : List String) (tk : List Tok),
        subAt p (.other (TList.cons (.macroInv ["m"] []) TList.nil))
          ≠ some (.macroInv mp tk))
    ∧ transform_type [] []
        (.other (TList.cons (.macroInv ["m"] []) TList.nil))
        = .other (TList.cons (.macroInv ["m"] []) TList.nil) := by
  have hfree : ∀ (p : List Dir) (mp : List String) (tk : List Tok),
      subAt p (TExpr.other (TList.cons (.macroInv ["m"] []) TList.nil))
        ≠ some (.macroInv mp tk) := by
    intro p mp tk h
    cases p with
    | nil =>
        rw [subAt] at h
        exact TExpr.noConfusion (Option.some.inj h)
    | cons d p' =>
        rw [subAt, (step_terminal d).1] at h
        exact Option.noConfusion h
  exact ⟨hfree,
    C5_frame_preservation.1 [] []
      (.other (TList.cons (.macroInv ["m"] []) TList.nil)) hfree⟩

theorem transform_macro_hit (reg : List (TExpr × String))
    (generics : List GenericParam) (mp : List String) (toks : List Tok)
    (a : String) (h : lookupReg reg (.macroInv mp toks) = some a) :
    transform_type reg generics (.macroInv mp toks)
      = aliasRef a (get_used_generic_params (.macroInv mp toks) generics) := by
  rw [transform_type, h]

theorem transform_macro_miss (reg : List (TExpr × String))
    (generics : List GenericParam) (mp : List String) (toks : List Tok)
    (h : lookupReg reg (.macroInv mp toks) = none) :
    transform_type reg generics (.macroInv mp toks) = .macroInv mp toks := by
  rw [transform_type, h]

/-- C3: wherever a registered macro node sits at a traversed position of a
field type — nested in path generic arguments, arrays, slices, pointers,
references or tuples, at any depth — the rewrite puts at exactly that
position a one-segment path naming the alias (argument-free when the used
parameter list is empty, otherwise carrying the used parameters as generic
arguments in `TypeGenerics` print order); every traversed position holds the
rewrite of the original subterm, and every non-macro constructor is rebuilt
around its rewritten children with its other data unchanged. -/
theorem C3_substitution_in_place :
    (∀ (reg : List (TExpr × String)) (generics : List GenericParam)
        (p : List Dir) (t : TExpr) (mp : List String) (toks : List Tok)
        (a : String),
        subAt p t = some (.macroInv mp toks) →
        lookupReg reg (.macroInv mp toks) = some a →
        subAt p (transform_type reg generics t)
          = some (aliasRef a
              (get_used_generic_params (.macroInv mp toks) generics)))
    ∧ (∀ (reg : List (TExpr × String)) (generics : List GenericParam)
        (p : List Dir) (t s : TExpr), subAt p t = some s →
        subAt p (transform_type reg generics t)
          = some (transform_type reg generics s))
    ∧ (∀ a, aliasRef a [] = .path (.cons a .noArgs .nil))
    ∧ (∀ a used, used ≠ [] →
        aliasRef a used = .path (.cons a
          (.withArgs (TList.ofList ((typeGenericsOrder used).map paramToArg)))
          .nil))
    ∧ (∀ reg generics e l, transform_type reg generics (.array e l)
        = .array (transform_type reg generics e) l)
    ∧ (∀ reg generics e, transform_type reg generics (.slice e)
        = .slice (transform_type reg generics e))
    ∧ (∀ reg generics m e, transform_type reg generics (.ptr m e)
        = .ptr m (transform_type reg generics e))
    ∧ (∀ reg generics l m e, transform_type reg generics (.ref l m e)
        = .ref l m (transform_type reg generics e))
    ∧ (∀ reg generics es, transform_type reg generics (.tuple es)
        = .tuple (transformTList reg generics es))
    ∧ (∀ reg generics segs, transform_type reg generics (.path segs)
        = .path (transformSegs reg generics segs)) := by
  refine ⟨?_, ?_, ?_, ?_, ?_, ?_, ?_, ?_, ?_, ?_⟩
  · intro reg generics p t mp toks a hp hl
    rw [subAt_transform reg generics p t _ hp,
      transform_macro_hit reg generics mp toks a hl]
  · intro reg generics p t s hp
    exact subAt_transform reg generics p t s hp
  · intro a
    rw [aliasRef, if_pos]
    rfl
  · intro a used hne
    rw [aliasRef, if_neg]
    simpa using hne
  · intro reg generics e l; rw [transform_type]
  · intro reg generics e; rw [transform_type]
  · intro reg generics m e; rw [transform_type]
  · intro reg generics l m e; rw [transform_type]
  · intro reg generics es; rw [transform_type]
  · intro reg generics segs; rw [transform_type]

/-- Witness for C3: a macro invocation three levels deep (tuple, array, path
argument) is replaced at exactly that position by a reference to its alias
carrying the one used type parameter. -/
theorem C3_substitution_in_place_witness :
    subAt [Dir.inTup 0, Dir.inElem, Dir.inSeg 0 0]
      (TExpr.tuple (TList.cons (TExpr.array (TExpr.path (Segs.cons "Outer"
        (OptArgs.withArgs (TList.cons (TExpr.macroInv ["Inner"]
          [Tok.ident "T"]) TList.nil)) Segs.nil)) "4") TList.nil))
      = some (TExpr.macroInv ["Inner"] [Tok.ident "T"])
    ∧ lookupReg [((TExpr.macroInv ["Inner"] [Tok.ident "T"]), "A")]
        (TExpr.macroInv ["Inner"] [Tok.ident "T"]) = some "A"
    ∧ subAt [Dir.inTup 0, Dir.inElem, Dir.inSeg 0 0]
        (transform_type [((TExpr.macroInv ["Inner"] [Tok.ident "T"]), "A")]
          [GenericParam.typeP "T" "" none]
          (TExpr.tuple (TList.cons (TExpr.array (TExpr.path (Segs.cons "Outer"
            (OptArgs.withArgs (TList.cons (TExpr.macroInv ["Inner"]
              [Tok.ident "T"]) TList.nil)) Segs.nil)) "4") TList.nil)))
        = some (aliasRef "A"
            (get_used_generic_params (TExpr.macroInv ["Inner"] [Tok.ident "T"])
              [GenericParam.typeP "T" "" none])) :=
  ⟨rfl, rfl,
    C3_substitution_in_place.1 [((TExpr.macroInv ["Inner"] [Tok.ident "T"]), "A")]
      [GenericParam.typeP "T" "" none]
      [Dir.inTup 0, Dir.inElem, Dir.inSeg 0 0] _ ["Inner"] [Tok.ident "T"] "A"
      rfl rfl⟩

theorem mem_allMacrosF_iff (f : FieldsK) (x : TExpr) :
    x ∈ allMacrosF f ↔
      (IsMacroB x = true ∧ ∃ ft ∈ fieldTypesF f, ∃ p, subAt p ft = some x) := by
  rw [allMacrosF, List.mem_flatten]
  constructor
  · rintro ⟨l, hl, hx⟩
    rw [List.mem_map] at hl
    obtain ⟨ft, hft, rfl⟩ := hl
    rw [mem_macrosIn_iff] at hx
    exact ⟨hx.1, ft, hft, hx.2⟩
  · rintro ⟨hm, ft, hft, p, hp⟩
    exact ⟨macrosIn ft, List.mem_map_of_mem _ hft,
      (mem_macrosIn_iff ft x).mpr ⟨hm, p, hp⟩⟩

theorem mem_allMacrosD_iff (data : DataK) (x : TExpr) :
    x ∈ allMacrosD data ↔
      (IsMacroB x = true ∧ ∃ ft ∈ fieldTypesD data, ∃ p, subAt p ft = some x) := by
  cases data with
  | structD fs => exact mem_allMacrosF_iff fs x
  | unionD fs => exact mem_allMacrosF_iff (.named fs) x
  | enumD vs =>
      rw [allMacrosD, fieldTypesD, List.mem_flatten]
      constructor
      · rintro ⟨l, hl, hx⟩
        rw [List.mem_map] at hl
        obtain ⟨v, hv, rfl⟩ := hl
        rw [mem_allMacrosF_iff] at hx
        obtain ⟨hm, ft, hft, p, hp⟩ := hx
        refine ⟨hm, ft, ?_, p, hp⟩
        rw [List.mem_flatten]
        exact ⟨fieldTypesF v.vfields, List.mem_map_of_mem _ hv, hft⟩
      · rintro ⟨hm, ft, hft, p, hp⟩
        rw [List.mem_flatten] at hft
        obtain ⟨l, hl, hftl⟩ := hft
        rw [List.mem_map] at hl
        obtain ⟨v, hv, rfl⟩ := hl
        refine ⟨allMacrosF v.vfields, List.mem_map_of_mem _ hv, ?_⟩
        rw [mem_allMacrosF_iff]
        exact ⟨hm, ft, hftl, p, hp⟩

/-- Whether an output item is the alias item generated for macro node `t`. -/
def isAliasFor (t : TExpr) : OutItem → Bool
  | .aliasItem a => a.body == t
  | _ => false

/-- The number of alias items for macro node `t` in an output stream. -/
def countAliasBody (items : List OutItem) (t : TExpr) : Nat :=
  (items.filter (isAliasFor t)).length

theorem mkAlias_body (t : TExpr) (n : String) (g : List GenericParam) :
    (mkAlias t n g).body = t := by
  simp only [mkAlias]
  split
  · rfl
  · rfl

theorem countAliasBody_append (l1 l2 : List OutItem) (t : TExpr) :
    countAliasBody (l1 ++ l2) t = countAliasBody l1 t + countAliasBody l2 t := by
  rw [countAliasBody, countAliasBody, countAliasBody, List.filter_append,
    List.length_append]

theorem countAliasBody_map (g : List GenericParam) (t : TExpr) :
    ∀ order : List (TExpr × String),
      countAliasBody
        (order.map (fun e => OutItem.aliasItem (mkAlias e.1 e.2 g))) t
        = (regKeys order).count t := by
  intro order
  induction order with
  | nil => rfl
  | cons e rest ih =>
      have hb : isAliasFor t (OutItem.aliasItem (mkAlias e.1 e.2 g))
          = (e.1 == t) := by
        rw [isAliasFor, mkAlias_body]
      have hk : regKeys (e :: rest) = e.1 :: regKeys rest := rfl
      rw [List.map_cons, countAliasBody, List.filter_cons, hb]
      rw [countAliasBody] at ih
      by_cases h : e.1 = t
      · rw [if_pos (by simp [h]), List.length_cons, ih, hk]
        simp [List.count_cons, h]
      · rw [if_neg (by simp [h]), ih, hk]
        simp [List.count_cons, h]

theorem countAliasBody_single_decl (d : DeriveInput) (t : TExpr) :
    countAliasBody [OutItem.declItem d] t = 0 := rfl

theorem countAliasBody_derive (tr : List String) (t : TExpr) :
    countAliasBody [OutItem.deriveAttr tr] t = 0 := rfl

/-- C2: a macro invocation occurring (at traversed positions) anywhere in the
declaration's fields is registered under exactly one registry entry, exactly
one alias item for it appears in the output, and any two of its occurrences —
in the same or different fields — rewrite to the same alias reference.
Registry keying is structural equality of the node (the embedding's maps are
keyed by value; no identity notion exists). -/
theorem C2_dedup_one_alias :
    ∀ (rnd : Nat → String) (input : DeriveInput) (traits : List String)
      (order : List (TExpr × String)) (mp : List String) (toks : List Tok),
      order.Perm (inputReg rnd input) →
      (∃ ft ∈ fieldTypesD input.data, ∃ p, subAt p ft
          = some (.macroInv mp toks)) →
      ∃ a : String,
        lookupReg (inputReg rnd input) (.macroInv mp toks) = some a
        ∧ (regKeys (inputReg rnd input)).count (.macroInv mp toks) = 1
        ∧ countAliasBody
            (impl_type_macro_derive_tricks traits input rnd order)
            (.macroInv mp toks) = 1
        ∧ (∀ (f1 f2 : TExpr) (p1 p2 : List Dir),
            subAt p1 f1 = some (.macroInv mp toks) →
            subAt p2 f2 = some (.macroInv mp toks) →
            subAt p1 (transform_type (inputReg rnd input) input.generics f1)
              = some (aliasRef a (get_used_generic_params
                  (.macroInv mp toks) input.generics))
            ∧ subAt p2 (transform_type (inputReg rnd input) input.generics f2)
              = some (aliasRef a (get_used_generic_params
                  (.macroInv mp toks) input.generics))) := by
  intro rnd input traits order mp toks hperm hocc
  have hmem : (.macroInv mp toks) ∈ allMacrosD input.data := by
    rw [mem_allMacrosD_iff]
    exact ⟨rfl, hocc⟩
  have hsome : (lookupReg (inputReg rnd input) (.macroInv mp toks)).isSome
      = true := by
    rw [lookupReg_inputReg_isSome]
    exact hmem
  rcases ha : lookupReg (inputReg rnd input) (.macroInv mp toks) with _ | a
  · rw [ha] at hsome
    exact Bool.noConfusion hsome
  refine ⟨a, rfl, ?_, ?_, ?_⟩
  · exact count_regKeys_eq_one _ _ (nodup_inputReg rnd input)
      ((lookupReg_isSome_iff_mem _ _).mp hsome)
  · simp only [impl_type_macro_derive_tricks]
    rw [countAliasBody_append, countAliasBody_append, countAliasBody_map]
    have hc1 : (regKeys order).count (TExpr.macroInv mp toks)
        = (regKeys (inputReg rnd input)).count (TExpr.macroInv mp toks) :=
      (hperm.map Prod.fst).count_eq _
    rw [hc1]
    have hc2 : (regKeys (inputReg rnd input)).count (TExpr.macroInv mp toks)
        = 1 :=
      count_regKeys_eq_one _ _ (nodup_inputReg rnd input)
        ((lookupReg_isSome_iff_mem _ _).mp hsome)
    rw [hc2, countAliasBody_single_decl]
    split
    · rfl
    · rw [countAliasBody_derive]
  · intro f1 f2 p1 p2 h1 h2
    constructor
    · rw [subAt_transform _ _ _ _ _ h1,
        transform_macro_hit _ _ _ _ _ ha]
    · rw [subAt_transform _ _ _ _ _ h2,
        transform_macro_hit _ _ _ _ _ ha]

/-- A two-field record whose fields carry the same macro invocation. -/
def sampleInput2 : DeriveInput :=
  ⟨"S", [], .structD (.named
    [("a", .macroInv ["M"] []), ("b", .macroInv ["M"] [])])⟩

/-- Witness for C2 at the two-field declaration. -/
theorem C2_dedup_one_alias_witness :
    ((inputReg (fun _ => "N") sampleInput2).Perm
        (inputReg (fun _ => "N") sampleInput2))
    ∧ (∃ ft ∈ fieldTypesD sampleInput2.data, ∃ p,
        subAt p ft = some (.macroInv ["M"] []))
    ∧ (∃ a : String,
        lookupReg (inputReg (fun _ => "N") sampleInput2)
            (.macroInv ["M"] []) = some a
        ∧ (regKeys (inputReg (fun _ => "N") sampleInput2)).count
            (.macroInv ["M"] []) = 1
        ∧ countAliasBody
            (impl_type_macro_derive_tricks ["Debug"] sampleInput2
              (fun _ => "N") (inputReg (fun _ => "N") sampleInput2))
            (.macroInv ["M"] []) = 1
        ∧ (∀ (f1 f2 : TExpr) (p1 p2 : List Dir),
            subAt p1 f1 = some (.macroInv ["M"] []) →
            subAt p2 f2 = some (.macroInv ["M"] []) →
            subAt p1 (transform_type (inputReg (fun _ => "N") sampleInput2)
                sampleInput2.generics f1)
              = some (aliasRef a (get_used_generic_params
                  (.macroInv ["M"] []) sampleInput2.generics))
            ∧ subAt p2 (transform_type (inputReg (fun _ => "N") sampleInput2)
                sampleInput2.generics f2)
              = some (aliasRef a (get_used_generic_params
                  (.macroInv ["M"] []) sampleInput2.generics)))) := by
  have hocc : ∃ ft ∈ fieldTypesD sampleInput2.data, ∃ p,
      subAt p ft = some (TExpr.macroInv ["M"] []) := by
    refine ⟨.macroInv ["M"] [], ?_, [], rfl⟩
    simp [sampleInput2, fieldTypesD, fieldTypesF]
  exact ⟨List.Perm.refl _, hocc,
    C2_dedup_one_alias (fun _ => "N") sampleInput2 ["Debug"] _ ["M"] []
      (List.Perm.refl _) hocc⟩

/-- The collection-state invariant tying each registry entry's name to its
insertion index: entry `i` carries the `i`-th generated name. -/
def NamesIndexed (rnd : Nat → String) (st : CollectSt) : Prop :=
  st.cnt = st.reg.length
  ∧ ∀ i (h : i < st.reg.length),
      (st.reg.get ⟨i, h⟩).2 = generate_random_type_name (rnd i)

theorem registerNode_names (rnd : Nat → String) (t : TExpr) (st : CollectSt)
    (hinv : NamesIndexed rnd st) : NamesIndexed rnd (registerNode rnd t st) := by
  obtain ⟨hc, hn⟩ := hinv
  rw [registerNode]
  split
  · exact ⟨hc, hn⟩
  · refine ⟨by simp [hc], ?_⟩
    intro i h
    simp only [List.length_append, List.length_singleton] at h
    by_cases hi : i < st.reg.length
    · have hg : ((st.reg ++ [(t, generate_random_type_name (rnd st.cnt))]).get
          ⟨i, by simp; omega⟩) = st.reg.get ⟨i, hi⟩ := by
        simp [List.getElem_append_left hi]
      rw [hg]
      exact hn i hi
    · have hieq : i = st.reg.length := by omega
      subst hieq
      have hg : ((st.reg ++ [(t, generate_random_type_name (rnd st.cnt))]).get
          ⟨st.reg.length, by simp⟩)
          = (t, generate_random_type_name (rnd st.cnt)) := by
        simp
      rw [hg, hc]

theorem registerAll_names (rnd : Nat → String) :
    ∀ (l : List TExpr) (st : CollectSt), NamesIndexed rnd st →
      NamesIndexed rnd (registerAll rnd l st) := by
  intro l
  induction l with
  | nil => intro st h; exact h
  | cons y ys ih =>
      intro st h
      rw [registerAll, List.foldl_cons]
      exact ih _ (registerNode_names rnd y st h)

theorem inputReg_names (rnd : Nat → String) (input : DeriveInput)
    (i : Nat) (h : i < (inputReg rnd input).length) :
    ((inputReg rnd input).get ⟨i, h⟩).2 = generate_random_type_name (rnd i) := by
  have hinv : NamesIndexed rnd (collect_macro_types rnd input.data ⟨[], 0⟩) := by
    rw [collect_data_eq]
    exact registerAll_names rnd _ _ ⟨rfl, by intro i hi; simp at hi⟩
  exact hinv.2 i h

theorem generate_random_type_name_injective (a b : String)
    (h : generate_random_type_name a = generate_random_type_name b) : a = b := by
  rw [generate_random_type_name, generate_random_type_name] at h
  have hd := congrArg String.data h
  rw [String.data_append, String.data_append] at hd
  have := List.append_cancel_left hd
  exact String.ext this

theorem countAliasBody_impl_eq_one (rnd : Nat → String) (input : DeriveInput)
    (traits : List String) (order : List (TExpr × String)) (m : TExpr)
    (hperm : order.Perm (inputReg rnd input))
    (hmem : m ∈ allMacrosD input.data) :
    countAliasBody (impl_type_macro_derive_tricks traits input rnd order) m
      = 1 := by
  have hsome : (lookupReg (inputReg rnd input) m).isSome = true := by
    rw [lookupReg_inputReg_isSome]
    exact hmem
  simp only [impl_type_macro_derive_tricks]
  rw [countAliasBody_append, countAliasBody_append, countAliasBody_map]
  have hco : (regKeys order).count m = (regKeys (inputReg rnd input)).count m := by
    rw [regKeys, regKeys]
    exact (hperm.map Prod.fst).count_eq m
  have hc2 : (regKeys (inputReg rnd input)).count m = 1 :=
    count_regKeys_eq_one _ _ (nodup_inputReg rnd input)
      ((lookupReg_isSome_iff_mem _ _).mp hsome)
  rw [hco, hc2, countAliasBody_single_decl]
  split
  · rfl
  · rw [countAliasBody_derive]

/-- C8 (amended): two structurally different macro invocations in one
declaration produce two distinct registry entries and two alias items; their
names are distinct whenever the random suffix source returns pairwise
distinct suffixes — the source draws names independently and never checks
distinctness, so equal suffixes would yield equal names. -/
theorem C8_distinct_nodes_distinct_aliases :
    ∀ (rnd : Nat → String) (input : DeriveInput) (traits : List String)
      (order : List (TExpr × String)) (m1 m2 : TExpr),
      IsMacroB m1 = true → IsMacroB m2 = true → m1 ≠ m2 →
      (∃ ft ∈ fieldTypesD input.data, ∃ p, subAt p ft = some m1) →
      (∃ ft ∈ fieldTypesD input.data, ∃ p, subAt p ft = some m2) →
      order.Perm (inputReg rnd input) →
      (∀ i j : Nat, i ≠ j → rnd i ≠ rnd j) →
      ∃ n1 n2 : String,
        lookupReg (inputReg rnd input) m1 = some n1
        ∧ lookupReg (inputReg rnd input) m2 = some n2
        ∧ n1 ≠ n2
        ∧ countAliasBody
            (impl_type_macro_derive_tricks traits input rnd order) m1 = 1
        ∧ countAliasBody
            (impl_type_macro_derive_tricks traits input rnd order) m2 = 1 := by
  intro rnd input traits order m1 m2 hm1 hm2 hne hocc1 hocc2 hperm hinj
  have hmem1 : m1 ∈ allMacrosD input.data := by
    rw [mem_allMacrosD_iff]; exact ⟨hm1, hocc1⟩
  have hmem2 : m2 ∈ allMacrosD input.data := by
    rw [mem_allMacrosD_iff]; exact ⟨hm2, hocc2⟩
  have hs1 : (lookupReg (inputReg rnd input) m1).isSome = true := by
    rw [lookupReg_inputReg_isSome]; exact hmem1
  have hs2 : (lookupReg (inputReg rnd input) m2).isSome = true := by
    rw [lookupReg_inputReg_isSome]; exact hmem2
  rcases h1 : lookupReg (inputReg rnd input) m1 with _ | n1
  · rw [h1] at hs1; exact Bool.noConfusion hs1
  rcases h2 : lookupReg (inputReg rnd input) m2 with _ | n2
  · rw [h2] at hs2; exact Bool.noConfusion hs2
  have hp1 := lookupReg_mem_pair _ _ _ h1
  have hp2 := lookupReg_mem_pair _ _ _ h2
  rw [List.mem_iff_get] at hp1 hp2
  obtain ⟨⟨i, hilt⟩, hi⟩ := hp1
  obtain ⟨⟨j, hjlt⟩, hj⟩ := hp2
  have hij : i ≠ j := by
    intro hij
    subst hij
    rw [hi] at hj
    exact hne (congrArg Prod.fst hj)
  have hn1 : n1 = generate_random_type_name (rnd i) := by
    have := inputReg_names rnd input i hilt
    rw [hi] at this
    exact this.symm ▸ rfl
  have hn2 : n2 = generate_random_type_name (rnd j) := by
    have := inputReg_names rnd input j hjlt
    rw [hj] at this
    exact this.symm ▸ rfl
  refine ⟨n1, n2, rfl, rfl, ?_, ?_, ?_⟩
  · rw [hn1, hn2]
    intro hcontra
    exact hinj i j hij (generate_random_type_name_injective _ _ hcontra)
  · exact countAliasBody_impl_eq_one rnd input traits order m1 hperm hmem1
  · exact countAliasBody_impl_eq_one rnd input traits order m2 hperm hmem2

/-- A two-field record whose fields carry two different macro invocations. -/
def sampleInputAB : DeriveInput :=
  ⟨"S", [], .structD (.named
    [("a", .macroInv ["a"] []), ("b", .macroInv ["b"] [])])⟩

/-- Counterexample to C8 as stated: names are not guaranteed distinct.  When
the random source returns the same suffix twice (which nothing prevents or
detects), the two distinct macro nodes are registered under the same
generated name. -/
theorem C8_counterexample :
    (TExpr.macroInv ["a"] [] ≠ TExpr.macroInv ["b"] [])
    ∧ lookupReg (inputReg (fun _ => "R") sampleInputAB)
        (.macroInv ["a"] []) = some "__TypeMacroAliasR"
    ∧ lookupReg (inputReg (fun _ => "R") sampleInputAB)
        (.macroInv ["b"] []) = some "__TypeMacroAliasR" := by
  refine ⟨by decide, rfl, rfl⟩

/-- An injective suffix source, standing for collision-free random draws. -/
def injRnd : Nat → String := fun i => String.mk (List.replicate i 'x')

theorem injRnd_injective : ∀ i j : Nat, i ≠ j → injRnd i ≠ injRnd j := by
  intro i j hij h
  apply hij
  have := congrArg String.data h
  simp only [injRnd] at this
  have hlen := congrArg List.length this
  simpa using hlen

/-- Witness for C8 at the two-macro declaration with an injective suffix
source. -/
theorem C8_distinct_nodes_distinct_aliases_witness :
    (IsMacroB (TExpr.macroInv ["a"] []) = true)
    ∧ (IsMacroB (TExpr.macroInv ["b"] []) = true)
    ∧ (TExpr.macroInv ["a"] [] ≠ TExpr.macroInv ["b"] [])
    ∧ (∃ ft ∈ fieldTypesD sampleInputAB.data, ∃ p,
        subAt p ft = some (.macroInv ["a"] []))
    ∧ (∃ ft ∈ fieldTypesD sampleInputAB.data, ∃ p,
        subAt p ft = some (.macroInv ["b"] []))
    ∧ ((inputReg injRnd sampleInputAB).Perm (inputReg injRnd sampleInputAB))
    ∧ (∀ i j : Nat, i ≠ j → injRnd i ≠ injRnd j)
    ∧ (∃ n1 n2 : String,
        lookupReg (inputReg injRnd sampleInputAB) (.macroInv ["a"] [])
          = some n1
        ∧ lookupReg (inputReg injRnd sampleInputAB) (.macroInv ["b"] [])
          = some n2
        ∧ n1 ≠ n2
        ∧ countAliasBody
            (impl_type_macro_derive_tricks ["Clone"] sampleInputAB injRnd
              (inputReg injRnd sampleInputAB)) (.macroInv ["a"] []) = 1
        ∧ countAliasBody
            (impl_type_macro_derive_tricks ["Clone"] sampleInputAB injRnd
              (inputReg injRnd sampleInputAB)) (.macroInv ["b"] []) = 1) := by
  have hocc1 : ∃ ft ∈ fieldTypesD sampleInputAB.data, ∃ p,
      subAt p ft = some (TExpr.macroInv ["a"] []) := by
    refine ⟨.macroInv ["a"] [], ?_, [], rfl⟩
    simp [sampleInputAB, fieldTypesD, fieldTypesF]
  have hocc2 : ∃ ft ∈ fieldTypesD sampleInputAB.data, ∃ p,
      subAt p ft = some (TExpr.macroInv ["b"] []) := by
    refine ⟨.macroInv ["b"] [], ?_, [], rfl⟩
    simp [sampleInputAB, fieldTypesD, fieldTypesF]
  exact ⟨rfl, rfl, by decide, hocc1, hocc2, List.Perm.refl _, injRnd_injective,
    C8_distinct_nodes_distinct_aliases injRnd sampleInputAB ["Clone"] _
      (.macroInv ["a"] []) (.macroInv ["b"] []) rfl rfl (by decide)
      hocc1 hocc2 (List.Perm.refl _) injRnd_injective⟩

theorem TList.toList_ofList : ∀ l : List TExpr, (TList.ofList l).toList = l := by
  intro l
  induction l with
  | nil => rfl
  | cons t ts ih => rw [TList.ofList, TList.toList, ih]

theorem paramToArg_stripDefault (p : GenericParam) :
    paramToArg (stripDefault p) = paramToArg p := by
  cases p <;> rfl

/-- A declaration's parameter list is well formed in Rust's sense: all
lifetime parameters precede all type and const parameters. -/
def lifetimesFirst : List GenericParam → Bool
  | [] => true
  | p :: rest =>
      if isLifetimeParam p then lifetimesFirst rest
      else rest.all (fun q => !isLifetimeParam q)

theorem lifetimesFirst_of_all_nonlifetime :
    ∀ l : List GenericParam, l.all (fun q => !isLifetimeParam q) = true →
      lifetimesFirst l = true := by
  intro l h
  cases l with
  | nil => rfl
  | cons p rest =>
      rw [List.all_cons, Bool.and_eq_true] at h
      rw [lifetimesFirst, if_neg (by simpa using h.1)]
      exact h.2

theorem typeGenericsOrder_of_lifetimesFirst :
    ∀ ps : List GenericParam, lifetimesFirst ps = true →
      typeGenericsOrder ps = ps := by
  intro ps
  induction ps with
  | nil => intro _; rfl
  | cons p rest ih =>
      intro h
      rw [lifetimesFirst] at h
      by_cases hL : isLifetimeParam p = true
      · rw [if_pos hL] at h
        rw [typeGenericsOrder, List.filter_cons, if_pos hL, List.filter_cons,
          if_neg (by simp [hL]), List.cons_append]
        have := ih h
        rw [typeGenericsOrder] at this
        rw [this]
      · rw [if_neg hL] at h
        rw [List.all_eq_true] at h
        rw [typeGenericsOrder, List.filter_cons, if_neg hL, List.filter_cons,
          if_pos (by simp [hL])]
        have hLnil : rest.filter (fun p => isLifetimeParam p) = [] := by
          rw [List.filter_eq_nil_iff]
          intro q hq
          have := h q hq
          simpa using this
        have hNall : rest.filter (fun p => !isLifetimeParam p) = rest := by
          rw [List.filter_eq_self]
          exact h
        have hfilter : (rest.filter (fun p => isLifetimeParam p)) = [] := hLnil
        rw [hfilter, hNall, List.nil_append]

theorem lifetimesFirst_filter (pred : GenericParam → Bool) :
    ∀ ps : List GenericParam, lifetimesFirst ps = true →
      lifetimesFirst (ps.filter pred) = true := by
  intro ps
  induction ps with
  | nil => intro _; rfl
  | cons p rest ih =>
      intro h
      rw [lifetimesFirst] at h
      rw [List.filter_cons]
      by_cases hL : isLifetimeParam p = true
      · rw [if_pos hL] at h
        split
        · rw [lifetimesFirst, if_pos hL]
          exact ih h
        · exact ih h
      · rw [if_neg hL] at h
        have hall : (rest.filter pred).all (fun q => !isLifetimeParam q)
            = true := by
          rw [List.all_eq_true] at h ⊢
          intro q hq
          exact h q (List.mem_of_mem_filter hq)
        split
        · rw [lifetimesFirst, if_neg hL]
          exact hall
        · exact lifetimesFirst_of_all_nonlifetime _ hall

theorem mkAlias_params (t : TExpr) (n : String) (g : List GenericParam) :
    (mkAlias t n g).params =
      if (get_used_generic_params t g).isEmpty then none
      else some ((create_filtered_generics
        (get_used_generic_params t g)).map stripDefault) := by
  simp only [mkAlias]
  split
  · rfl
  · rfl

/-- C10: for a registered macro node, the rewrite and the alias emission run
the same usage analysis, so (on any declaration whose lifetime parameters
precede the others, as Rust requires) the substituted reference carries
exactly the declared parameters of the alias, by name, positionally, in the
same order — the argument count equals the declared parameter count, and the
reference is a bare name exactly when the alias is declared non-generic. -/
theorem C10_reference_matches_declaration :
    ∀ (reg : List (TExpr × String)) (generics : List GenericParam)
      (mp : List String) (toks : List Tok) (a : String),
      lookupReg reg (.macroInv mp toks) = some a →
      lifetimesFirst generics = true →
      ((mkAlias (.macroInv mp toks) a generics).params = none ↔
        transform_type reg generics (.macroInv mp toks)
          = .path (.cons a .noArgs .nil))
      ∧ (∀ ps, (mkAlias (.macroInv mp toks) a generics).params = some ps →
          transform_type reg generics (.macroInv mp toks)
            = .path (.cons a
                (.withArgs (TList.ofList (ps.map paramToArg))) .nil)
          ∧ (TList.ofList (ps.map paramToArg)).toList.length = ps.length
          ∧ (TList.ofList (ps.map paramToArg)).toList = ps.map paramToArg) := by
  intro reg generics mp toks a hlook hlf
  have htr := transform_macro_hit reg generics mp toks a hlook
  have horder : typeGenericsOrder
      (get_used_generic_params (.macroInv mp toks) generics)
      = get_used_generic_params (.macroInv mp toks) generics := by
    rw [get_used_eq_filter]
    exact typeGenericsOrder_of_lifetimesFirst _
      (lifetimesFirst_filter _ generics hlf)
  constructor
  · constructor
    · intro hnone
      rw [mkAlias_params] at hnone
      split at hnone
      · next hempty =>
          rw [htr, aliasRef, if_pos hempty]
      · exact Option.noConfusion hnone
    · intro hbare
      rw [mkAlias_params]
      split
      · rfl
      · next hne =>
          rw [htr, aliasRef, if_neg hne] at hbare
          have := TExpr.path.inj hbare
          have h2 := (Segs.cons.inj this).2.1
          exact OptArgs.noConfusion h2
  · intro ps hps
    rw [mkAlias_params] at hps
    split at hps
    · exact Option.noConfusion hps
    · next hne =>
        have hps2 : ps = (create_filtered_generics
            (get_used_generic_params (.macroInv mp toks) generics)).map
              stripDefault := (Option.some.inj hps).symm
        rw [create_filtered_generics_eq_id] at hps2
        have hargs : ps.map paramToArg
            = (get_used_generic_params (.macroInv mp toks) generics).map
                paramToArg := by
          rw [hps2, List.map_map]
          apply List.map_congr_left
          intro p hp
          exact paramToArg_stripDefault p
        refine ⟨?_, ?_, ?_⟩
        · rw [htr, aliasRef, if_neg hne, horder, hargs]
        · rw [TList.toList_ofList, List.length_map, hps2, List.length_map]
        · rw [TList.toList_ofList]

/-- Witness for C10 at a concrete registry, generics and macro node. -/
theorem C10_reference_matches_declaration_witness :
    lookupReg [((TExpr.macroInv ["M"] [Tok.ident "T"]), "A")]
        (TExpr.macroInv ["M"] [Tok.ident "T"]) = some "A"
    ∧ lifetimesFirst
        [GenericParam.lifetimeP "'a" "", GenericParam.typeP "T" "" none]
        = true
    ∧ (((mkAlias (TExpr.macroInv ["M"] [Tok.ident "T"]) "A"
          [GenericParam.lifetimeP "'a" "", GenericParam.typeP "T" "" none]).params
            = none ↔
        transform_type [((TExpr.macroInv ["M"] [Tok.ident "T"]), "A")]
          [GenericParam.lifetimeP "'a" "", GenericParam.typeP "T" "" none]
          (TExpr.macroInv ["M"] [Tok.ident "T"])
          = .path (.cons "A" .noArgs .nil))
      ∧ (∀ ps, (mkAlias (TExpr.macroInv ["M"] [Tok.ident "T"]) "A"
          [GenericParam.lifetimeP "'a" "", GenericParam.typeP "T" "" none]).params
            = some ps →
          transform_type [((TExpr.macroInv ["M"] [Tok.ident "T"]), "A")]
            [GenericParam.lifetimeP "'a" "", GenericParam.typeP "T" "" none]
            (TExpr.macroInv ["M"] [Tok.ident "T"])
            = .path (.cons "A"
                (.withArgs (TList.ofList (ps.map paramToArg))) .nil)
          ∧ (TList.ofList (ps.map paramToArg)).toList.length = ps.length
          ∧ (TList.ofList (ps.map paramToArg)).toList = ps.map paramToArg)) :=
  ⟨rfl, rfl,
    C10_reference_matches_declaration
      [((TExpr.macroInv ["M"] [Tok.ident "T"]), "A")]
      [GenericParam.lifetimeP "'a" "", GenericParam.typeP "T" "" none]
      ["M"] [Tok.ident "T"] "A" rfl rfl⟩

/-- C6 (amended): the output is the alias items — one per registry entry, in
the `HashMap`'s iteration order, an unspecified permutation of insertion
order — then the derive item exactly when the trait list is non-empty, then
the transformed declaration. -/
theorem C6_output_order :
    ∀ (traits : List String) (input : DeriveInput) (rnd : Nat → String)
      (order : List (TExpr × String)),
      order.Perm (inputReg rnd input) →
      impl_type_macro_derive_tricks traits input rnd order
        = (order.map (fun e =>
              OutItem.aliasItem (mkAlias e.1 e.2 input.generics)))
          ++ (if traits.isEmpty then [] else [OutItem.deriveAttr traits])
          ++ [OutItem.declItem (transform_input (inputReg rnd input) input)]
      ∧ (order.map (fun e =>
            OutItem.aliasItem (mkAlias e.1 e.2 input.generics))).Perm
          ((inputReg rnd input).map (fun e =>
            OutItem.aliasItem (mkAlias e.1 e.2 input.generics)))
      ∧ (traits = [] →
          impl_type_macro_derive_tricks traits input rnd order
            = (order.map (fun e =>
                OutItem.aliasItem (mkAlias e.1 e.2 input.generics)))
              ++ [OutItem.declItem
                  (transform_input (inputReg rnd input) input)]) := by
  intro traits input rnd order hperm
  refine ⟨rfl, hperm.map _, ?_⟩
  intro htr
  subst htr
  simp [impl_type_macro_derive_tricks, inputReg]

/-- Witness for C6 at the two-macro declaration with the registry's insertion
order itself as the iteration order. -/
theorem C6_output_order_witness :
    ((inputReg injRnd sampleInputAB).Perm (inputReg injRnd sampleInputAB))
    ∧ (impl_type_macro_derive_tricks ["Debug"] sampleInputAB injRnd
          (inputReg injRnd sampleInputAB)
        = ((inputReg injRnd sampleInputAB).map (fun e =>
              OutItem.aliasItem (mkAlias e.1 e.2 sampleInputAB.generics)))
          ++ (if (["Debug"] : List String).isEmpty then []
              else [OutItem.deriveAttr ["Debug"]])
          ++ [OutItem.declItem (transform_input
              (inputReg injRnd sampleInputAB) sampleInputAB)]
      ∧ ((inputReg injRnd sampleInputAB).map (fun e =>
            OutItem.aliasItem (mkAlias e.1 e.2 sampleInputAB.generics))).Perm
          ((inputReg injRnd sampleInputAB).map (fun e =>
            OutItem.aliasItem (mkAlias e.1 e.2 sampleInputAB.generics)))
      ∧ ((["Debug"] : List String) = [] →
          impl_type_macro_derive_tricks ["Debug"] sampleInputAB injRnd
            (inputReg injRnd sampleInputAB)
            = ((inputReg injRnd sampleInputAB).map (fun e =>
                OutItem.aliasItem (mkAlias e.1 e.2 sampleInputAB.generics)))
              ++ [OutItem.declItem (transform_input
                  (inputReg injRnd sampleInputAB) sampleInputAB)])) :=
  ⟨List.Perm.refl _,
    C6_output_order ["Debug"] sampleInputAB injRnd
      (inputReg injRnd sampleInputAB) (List.Perm.refl _)⟩

/-- The iteration order is not guaranteed to be insertion order: a suffix
source distinguishing the two entries. -/
def cexRnd : Nat → String := fun i => if i = 0 then "X" else "Y"

/-- Counterexample to C6 as stated: iterating the registry in the reversed
order — a permutation Rust's `HashMap` is free to produce — yields an output
whose alias items are not in registry insertion order, so the output differs
from the insertion-order output. -/
theorem C6_counterexample :
    ((inputReg cexRnd sampleInputAB).reverse).Perm
        (inputReg cexRnd sampleInputAB)
    ∧ impl_type_macro_derive_tricks ["Debug"] sampleInputAB cexRnd
        ((inputReg cexRnd sampleInputAB).reverse)
      ≠ impl_type_macro_derive_tricks ["Debug"] sampleInputAB cexRnd
        (inputReg cexRnd sampleInputAB) := by
  exact ⟨List.reverse_perm _, by decide⟩

/-- C9 (amended): with name generation stubbed to one fixed suffix sequence,
two runs of the transformation differ at most in the order of the alias
items: each run is its alias section followed by the same derive item and
the same transformed declaration, the two alias sections are permutations of
each other, and the two whole outputs are permutations of each other. -/
theorem C9_determinism_up_to_alias_order :
    ∀ (traits : List String) (input : DeriveInput) (rnd : Nat → String)
      (o1 o2 : List (TExpr × String)),
      o1.Perm (inputReg rnd input) → o2.Perm (inputReg rnd input) →
      (impl_type_macro_derive_tricks traits input rnd o1
        = (o1.map (fun e =>
              OutItem.aliasItem (mkAlias e.1 e.2 input.generics)))
          ++ (if traits.isEmpty then [] else [OutItem.deriveAttr traits])
          ++ [OutItem.declItem (transform_input (inputReg rnd input) input)])
      ∧ (impl_type_macro_derive_tricks traits input rnd o2
        = (o2.map (fun e =>
              OutItem.aliasItem (mkAlias e.1 e.2 input.generics)))
          ++ (if traits.isEmpty then [] else [OutItem.deriveAttr traits])
          ++ [OutItem.declItem (transform_input (inputReg rnd input) input)])
      ∧ (o1.map (fun e =>
            OutItem.aliasItem (mkAlias e.1 e.2 input.generics))).Perm
          (o2.map (fun e =>
            OutItem.aliasItem (mkAlias e.1 e.2 input.generics)))
      ∧ (impl_type_macro_derive_tricks traits input rnd o1).Perm
          (impl_type_macro_derive_tricks traits input rnd o2) := by
  intro traits input rnd o1 o2 h1 h2
  have h12 : o1.Perm o2 := h1.trans h2.symm
  refine ⟨rfl, rfl, h12.map _, ?_⟩
  show ((o1.map (fun e =>
          OutItem.aliasItem (mkAlias e.1 e.2 input.generics)))
        ++ (if traits.isEmpty then [] else [OutItem.deriveAttr traits])
        ++ [OutItem.declItem (transform_input
            (collect_macro_types rnd input.data ⟨[], 0⟩).reg input)]).Perm
      ((o2.map (fun e =>
          OutItem.aliasItem (mkAlias e.1 e.2 input.generics)))
        ++ (if traits.isEmpty then [] else [OutItem.deriveAttr traits])
        ++ [OutItem.declItem (transform_input
            (collect_macro_types rnd input.data ⟨[], 0⟩).reg input)])
  rw [List.append_assoc, List.append_assoc]
  exact (h12.map _).append_right _

/-- Witness for C9 at the two-macro declaration: the insertion order and its
reverse are both valid iteration orders. -/
theorem C9_determinism_up_to_alias_order_witness :
    ((inputReg cexRnd sampleInputAB).Perm (inputReg cexRnd sampleInputAB))
    ∧ (((inputReg cexRnd sampleInputAB).reverse).Perm
        (inputReg cexRnd sampleInputAB))
    ∧ ((impl_type_macro_derive_tricks ["Debug"] sampleInputAB cexRnd
          (inputReg cexRnd sampleInputAB)).Perm
        (impl_type_macro_derive_tricks ["Debug"] sampleInputAB cexRnd
          ((inputReg cexRnd sampleInputAB).reverse))) :=
  ⟨List.Perm.refl _, List.reverse_perm _,
    (C9_determinism_up_to_alias_order ["Debug"] sampleInputAB cexRnd
      (inputReg cexRnd sampleInputAB)
      ((inputReg cexRnd sampleInputAB).reverse)
      (List.Perm.refl _) (List.reverse_perm _)).2.2.2⟩

/-- Counterexample to C9 as stated: with the very same input, trait list and
stubbed name sequence, two iteration orders that Rust's `HashMap` may
produce in two runs yield different output streams — the difference is the
order of whole alias items, not the generated names, which are identical in
both runs. -/
theorem C9_counterexample :
    ((inputReg cexRnd sampleInputAB).Perm (inputReg cexRnd sampleInputAB))
    ∧ (((inputReg cexRnd sampleInputAB).reverse).Perm
        (inputReg cexRnd sampleInputAB))
    ∧ impl_type_macro_derive_tricks ["Clone"] sampleInputAB cexRnd
        (inputReg cexRnd sampleInputAB)
      ≠ impl_type_macro_derive_tricks ["Clone"] sampleInputAB cexRnd
        ((inputReg cexRnd sampleInputAB).reverse) := by
  exact ⟨List.Perm.refl _, List.reverse_perm _, by decide⟩
